import Mathlib

/-!
Verification of the tauri-plugin-store repository against its
natural-language specification.

The development shallowly embeds the three store implementations found in
the repository:

- src/store.rs: the builder-based Store whose load merges the decoded
  file contents into the cache and whose default codec is plain JSON
  (serde_json::to_vec / serde_json::from_slice);
- src/store_file.rs: the earlier Store whose load replaces the cache and
  whose default codec wraps the JSON text in a length-prefixed binary
  encoding (bincode of the serde_json string);
- src/lib.rs: the v1 plugin with StoreFile, the registry (StoreCollection)
  and the with_store entry point, whose lazy first load swallows failures.

JSON values are modelled by the inductive JVal: null, booleans, integer
numbers, strings, arrays and objects.  Numbers are modelled as integers;
floating-point numbers are outside the embedding.  Strings are lists of
unicode scalar values, and byte sequences are lists of naturals below 256.
Hash maps are modelled as association lists whose keys are pairwise
distinct; mutation follows HashMap semantics (insert replaces in place).

Change-event emission (tauri's app.emit / window.emit) is an external
collaborator; an operation's emit calls are modelled by a boolean oracle
saying whether each successive emission attempt succeeds, and each
operation returns the list of events actually emitted.  The file system
is modelled by passing the outcome of the read to load and returning the
written bytes from save.
-/

/-- Keys of a store (Rust String), modelled as lists of unicode scalars. -/
abbrev Key := List Char

/-- serde_json::Value, with numbers restricted to integers (the i64/u64
arms of serde_json::Number; floats are outside the embedding). -/
inductive JVal where
  | null
  | bool (b : Bool)
  | num (n : Int)
  | str (s : List Char)
  | arr (elems : List JVal)
  | obj (entries : List (Key × JVal))

mutual

def beqV : JVal → JVal → Bool
  | JVal.null, JVal.null => true
  | JVal.bool a, JVal.bool b => a = b
  | JVal.num a, JVal.num b => a = b
  | JVal.str a, JVal.str b => a = b
  | JVal.arr a, JVal.arr b => beqArr a b
  | JVal.obj a, JVal.obj b => beqObj a b
  | _, _ => false

def beqArr : List JVal → List JVal → Bool
  | [], [] => true
  | x :: xs, y :: ys => beqV x y && beqArr xs ys
  | _, _ => false

def beqObj : List (Key × JVal) → List (Key × JVal) → Bool
  | [], [] => true
  | (k1, v1) :: xs, (k2, v2) :: ys => decide (k1 = k2) && beqV v1 v2 && beqObj xs ys
  | _, _ => false

end

mutual

theorem beqV_iff : ∀ a b : JVal, beqV a b = true ↔ a = b
  | JVal.null, JVal.null => by simp [beqV]
  | JVal.bool _, JVal.bool _ => by simp [beqV]
  | JVal.num _, JVal.num _ => by simp [beqV]
  | JVal.str _, JVal.str _ => by simp [beqV]
  | JVal.arr a, JVal.arr b => by simp [beqV, beqArr_iff a b]
  | JVal.obj a, JVal.obj b => by simp [beqV, beqObj_iff a b]
  | JVal.null, JVal.bool _ => by simp [beqV]
  | JVal.null, JVal.num _ => by simp [beqV]
  | JVal.null, JVal.str _ => by simp [beqV]
  | JVal.null, JVal.arr _ => by simp [beqV]
  | JVal.null, JVal.obj _ => by simp [beqV]
  | JVal.bool _, JVal.null => by simp [beqV]
  | JVal.bool _, JVal.num _ => by simp [beqV]
  | JVal.bool _, JVal.str _ => by simp [beqV]
  | JVal.bool _, JVal.arr _ => by simp [beqV]
  | JVal.bool _, JVal.obj _ => by simp [beqV]
  | JVal.num _, JVal.null => by simp [beqV]
  | JVal.num _, JVal.bool _ => by simp [beqV]
  | JVal.num _, JVal.str _ => by simp [beqV]
  | JVal.num _, JVal.arr _ => by simp [beqV]
  | JVal.num _, JVal.obj _ => by simp [beqV]
  | JVal.str _, JVal.null => by simp [beqV]
  | JVal.str _, JVal.bool _ => by simp [beqV]
  | JVal.str _, JVal.num _ => by simp [beqV]
  | JVal.str _, JVal.arr _ => by simp [beqV]
  | JVal.str _, JVal.obj _ => by simp [beqV]
  | JVal.arr _, JVal.null => by simp [beqV]
  | JVal.arr _, JVal.bool _ => by simp [beqV]
  | JVal.arr _, JVal.num _ => by simp [beqV]
  | JVal.arr _, JVal.str _ => by simp [beqV]
  | JVal.arr _, JVal.obj _ => by simp [beqV]
  | JVal.obj _, JVal.null => by simp [beqV]
  | JVal.obj _, JVal.bool _ => by simp [beqV]
  | JVal.obj _, JVal.num _ => by simp [beqV]
  | JVal.obj _, JVal.str _ => by simp [beqV]
  | JVal.obj _, JVal.arr _ => by simp [beqV]

theorem beqArr_iff : ∀ a b : List JVal, beqArr a b = true ↔ a = b
  | [], [] => by simp [beqArr]
  | x :: xs, y :: ys => by simp [beqArr, beqV_iff x y, beqArr_iff xs ys]
  | [], _ :: _ => by simp [beqArr]
  | _ :: _, [] => by simp [beqArr]

theorem beqObj_iff : ∀ a b : List (Key × JVal), beqObj a b = true ↔ a = b
  | [], [] => by simp [beqObj]
  | (k1, v1) :: xs, (k2, v2) :: ys => by
      simp [beqObj, beqV_iff v1 v2, beqObj_iff xs ys]
  | [], _ :: _ => by simp [beqObj]
  | _ :: _, [] => by simp [beqObj]

end

instance : DecidableEq JVal := fun a b => decidable_of_iff (beqV a b = true) (beqV_iff a b)

/-- A string-keyed JSON mapping (Rust HashMap of String to serde_json::Value). -/
abbrev JMap := List (Key × JVal)

/-- HashMap::get, on the association-list model. -/
def alistGet {α : Type} : List (Key × α) → Key → Option α
  | [], _ => none
  | (k, v) :: rest, key => if k = key then some v else alistGet rest key

/-- HashMap::insert: replaces the value of an existing key in place,
appends a fresh key at the end. -/
def alistInsert {α : Type} : List (Key × α) → Key → α → List (Key × α)
  | [], key, val => [(key, val)]
  | (k, v) :: rest, key, val =>
      if k = key then (key, val) :: rest else (k, v) :: alistInsert rest key val

/-- HashMap::remove (the key's entry disappears, everything else stays). -/
def alistRemove {α : Type} : List (Key × α) → Key → List (Key × α)
  | [], _ => []
  | (k, v) :: rest, key => if k = key then rest else (k, v) :: alistRemove rest key

/-- HashMap::extend: inserts every pair of the second map, in order. -/
def alistExtend {α : Type} (base news : List (Key × α)) : List (Key × α) :=
  news.foldl (fun acc e => alistInsert acc e.1 e.2) base

/-- The keys of the mapping, in representation order. -/
def keysOf {α : Type} : List (Key × α) → List Key
  | [] => []
  | e :: rest => e.1 :: keysOf rest

/-- The representation invariant of a HashMap: keys are pairwise distinct. -/
def nodupKeys {α : Type} (m : List (Key × α)) : Prop := (keysOf m).Nodup

instance {α : Type} (m : List (Key × α)) : Decidable (nodupKeys m) := by
  unfold nodupKeys
  infer_instance

theorem alistGet_insert_self {α : Type} (m : List (Key × α)) (k : Key) (v : α) :
    alistGet (alistInsert m k v) k = some v := by
  induction m with
  | nil => simp [alistInsert, alistGet]
  | cons e rest ih =>
      obtain ⟨k0, v0⟩ := e
      by_cases h : k0 = k
      · simp [alistInsert, h, alistGet]
      · simp [alistInsert, h, alistGet, ih]

theorem alistGet_insert_ne {α : Type} (m : List (Key × α)) (k key : Key) (v : α)
    (h : k ≠ key) : alistGet (alistInsert m k v) key = alistGet m key := by
  induction m with
  | nil => simp [alistInsert, alistGet, h]
  | cons e rest ih =>
      obtain ⟨k0, v0⟩ := e
      by_cases h0 : k0 = k
      · subst h0
        simp [alistInsert, alistGet, h]
      · simp only [alistInsert, h0, if_false]
        by_cases h1 : k0 = key
        · simp [alistGet, h1]
        · simp [alistGet, h1, ih]

theorem alistGet_eq_none_of_not_mem {α : Type} (m : List (Key × α)) (k : Key)
    (h : k ∉ keysOf m) : alistGet m k = none := by
  induction m with
  | nil => simp [alistGet]
  | cons e rest ih =>
      obtain ⟨k0, v0⟩ := e
      simp only [keysOf, List.mem_cons] at h
      push_neg at h
      have hne : k0 ≠ k := fun hk => h.1 hk.symm
      simp only [alistGet, hne, if_false]
      exact ih h.2

theorem alistGet_remove_self {α : Type} (m : List (Key × α)) (k : Key)
    (hm : nodupKeys m) : alistGet (alistRemove m k) k = none := by
  induction m with
  | nil => simp [alistRemove, alistGet]
  | cons e rest ih =>
      obtain ⟨k0, v0⟩ := e
      simp only [nodupKeys, keysOf, List.nodup_cons] at hm
      by_cases h : k0 = k
      · subst h
        simp only [alistRemove, if_true]
        exact alistGet_eq_none_of_not_mem rest k0 hm.1
      · simp only [alistRemove, h, if_false, alistGet]
        exact ih hm.2

theorem alistGet_extend {α : Type} (news : List (Key × α)) (hn : nodupKeys news) :
    ∀ (base : List (Key × α)) (k : Key),
      alistGet (alistExtend base news) k =
        match alistGet news k with
        | some v => some v
        | none => alistGet base k := by
  induction news with
  | nil => intro base k; simp [alistExtend, alistGet]
  | cons e rest ih =>
      intro base k
      obtain ⟨k0, v0⟩ := e
      simp only [nodupKeys, keysOf, List.nodup_cons] at hn
      have hrest : nodupKeys rest := hn.2
      have hstep : alistExtend base ((k0, v0) :: rest) =
          alistExtend (alistInsert base k0 v0) rest := by
        simp [alistExtend, List.foldl_cons]
      rw [hstep, ih hrest]
      by_cases h : k0 = k
      · subst h
        have : alistGet rest k0 = none :=
          alistGet_eq_none_of_not_mem rest k0 hn.1
        simp [this, alistGet, alistGet_insert_self]
      · have hget : alistGet ((k0, v0) :: rest) k = alistGet rest k := by
          simp [alistGet, h]
        rw [hget]
        cases hr : alistGet rest k with
        | some v => simp
        | none => simp [alistGet_insert_ne base k0 k v0 h]

theorem alistInsert_of_not_mem {α : Type} (m : List (Key × α)) (k : Key) (v : α)
    (h : k ∉ keysOf m) : alistInsert m k v = m ++ [(k, v)] := by
  induction m with
  | nil => simp [alistInsert]
  | cons e rest ih =>
      obtain ⟨k0, v0⟩ := e
      simp only [keysOf, List.mem_cons] at h
      push_neg at h
      have hne : k0 ≠ k := fun hk => h.1 hk.symm
      simp [alistInsert, hne, ih h.2]

theorem keysOf_append {α : Type} (a b : List (Key × α)) :
    keysOf (a ++ b) = keysOf a ++ keysOf b := by
  induction a with
  | nil => simp [keysOf]
  | cons e rest ih => simp [keysOf, ih]

theorem alistExtend_append_of_disjoint {α : Type} (m : List (Key × α)) :
    ∀ base : List (Key × α), nodupKeys m → (∀ k, k ∈ keysOf m → k ∉ keysOf base) →
      alistExtend base m = base ++ m := by
  induction m with
  | nil => intro base _ _; simp [alistExtend]
  | cons e rest ih =>
      intro base hm hdisj
      obtain ⟨k0, v0⟩ := e
      simp only [nodupKeys, keysOf, List.nodup_cons] at hm
      have hk0 : k0 ∉ keysOf base := hdisj k0 (by simp [keysOf])
      have hstep : alistExtend base ((k0, v0) :: rest) =
          alistExtend (alistInsert base k0 v0) rest := by
        simp [alistExtend, List.foldl_cons]
      rw [hstep, alistInsert_of_not_mem base k0 v0 hk0]
      rw [ih (base ++ [(k0, v0)]) hm.2 ?_]
      · simp
      · intro k hk
        have hknot0 : k ≠ k0 := by
          intro hkk
          subst hkk
          exact hm.1 hk
        have hkbase : k ∉ keysOf base := hdisj k (by simp [keysOf, hk])
        rw [keysOf_append]
        simp only [List.mem_append, keysOf, List.mem_singleton, List.not_mem_nil]
        push_neg
        refine ⟨hkbase, ?_⟩
        simp [List.mem_cons, hknot0]

theorem alistExtend_nil_of_nodup {α : Type} (m : List (Key × α)) (hm : nodupKeys m) :
    alistExtend [] m = m := by
  simpa using alistExtend_append_of_disjoint m [] hm (by simp [keysOf])

/-!
Decimal digits.  serde_json prints integers with itoa (standard decimal
notation, a leading minus for negatives, no leading zeros) and parses
them with the JSON number grammar.
-/

/-- The character of a decimal digit value. -/
def digitChar (d : Nat) : Char := Char.ofNat (48 + d)

/-- Worker for natDigits; the fuel argument dominates the recursion depth
so that the definition is structural and evaluates inside the kernel. -/
def natDigitsAux : Nat → Nat → List Char
  | 0, _ => []
  | fuel + 1, n =>
      if n < 10 then [digitChar n]
      else natDigitsAux fuel (n / 10) ++ [digitChar (n % 10)]

/-- Decimal representation of a natural number, most significant first. -/
def natDigits (n : Nat) : List Char := natDigitsAux (n + 1) n

theorem natDigitsAux_irrel (n : Nat) :
    ∀ fuel1 fuel2, n < fuel1 → n < fuel2 →
      natDigitsAux fuel1 n = natDigitsAux fuel2 n := by
  induction n using Nat.strong_induction_on with
  | _ n ih =>
    intro fuel1 fuel2 h1 h2
    cases fuel1 with
    | zero => omega
    | succ f1 =>
        cases fuel2 with
        | zero => omega
        | succ f2 =>
            by_cases h10 : n < 10
            · simp [natDigitsAux, h10]
            · have hd : n / 10 < n := Nat.div_lt_self (by omega) (by omega)
              rw [natDigitsAux, natDigitsAux, if_neg h10, if_neg h10]
              rw [ih (n / 10) hd f1 f2 (by omega) (by omega)]

theorem natDigits_unfold (n : Nat) :
    natDigits n = if n < 10 then [digitChar n]
      else natDigits (n / 10) ++ [digitChar (n % 10)] := by
  by_cases h10 : n < 10
  · simp [natDigits, natDigitsAux, h10]
  · rw [if_neg h10]
    rw [show natDigits n = natDigitsAux (n + 1) n from rfl]
    rw [natDigitsAux, if_neg h10]
    have hd : n / 10 < n := Nat.div_lt_self (by omega) (by omega)
    rw [natDigitsAux_irrel (n / 10) n (n / 10 + 1) (by omega) (by omega)]
    rfl

/-- The digit test of the model (48 ≤ code ≤ 57), as serde_json uses it. -/
def isDigitCh (c : Char) : Bool := decide (48 ≤ c.toNat ∧ c.toNat ≤ 57)

/-- Consume a maximal run of leading digits, accumulating their value. -/
def parseDigitsAcc : List Char → Nat → Nat × List Char
  | [], acc => (acc, [])
  | c :: rest, acc =>
      if isDigitCh c then parseDigitsAcc rest (acc * 10 + (c.toNat - 48))
      else (acc, c :: rest)

theorem digitChar_toNat (d : Nat) (h : d < 10) : (digitChar d).toNat = 48 + d := by
  have hv : (48 + d).isValidChar := Or.inl (by omega)
  simp [digitChar, Char.ofNat, hv, Char.ofNatAux, Char.toNat, UInt32.toNat]

theorem isDigitCh_digitChar (d : Nat) (h : d < 10) : isDigitCh (digitChar d) = true := by
  simp [isDigitCh, digitChar_toNat d h]
  omega

theorem natDigits_ne_nil (n : Nat) : natDigits n ≠ [] := by
  rw [natDigits_unfold]
  split
  · simp
  · simp

theorem parseDigitsAcc_stop (rest : List Char) (acc : Nat)
    (h : ∀ c tail, rest = c :: tail → isDigitCh c = false) :
    parseDigitsAcc rest acc = (acc, rest) := by
  cases rest with
  | nil => simp [parseDigitsAcc]
  | cons c tail => simp [parseDigitsAcc, h c tail rfl]

theorem parseDigitsAcc_natDigits (n : Nat) :
    ∀ (acc : Nat) (rest : List Char),
      parseDigitsAcc (natDigits n ++ rest) acc =
        parseDigitsAcc rest (acc * 10 ^ (natDigits n).length + n) := by
  induction n using Nat.strong_induction_on with
  | _ n ih =>
    intro acc rest
    by_cases h : n < 10
    · rw [natDigits_unfold, if_pos h]
      simp only [List.singleton_append, List.length_singleton, pow_one]
      rw [parseDigitsAcc, if_pos (isDigitCh_digitChar n h), digitChar_toNat n h]
      congr 1
      omega
    · rw [natDigits_unfold, if_neg h]
      have hlt : n / 10 < n := Nat.div_lt_self (by omega) (by omega)
      simp only [List.append_assoc, List.singleton_append]
      rw [ih (n / 10) hlt acc (digitChar (n % 10) :: rest)]
      have hd : n % 10 < 10 := Nat.mod_lt _ (by omega)
      rw [parseDigitsAcc, if_pos (isDigitCh_digitChar _ hd), digitChar_toNat _ hd]
      simp only [List.length_append, List.length_singleton]
      congr 1
      have : (48 + n % 10 - 48) = n % 10 := by omega
      rw [this]
      rw [pow_succ]
      have hmod : 10 * (n / 10) + n % 10 = n := Nat.div_add_mod n 10
      ring_nf
      omega

theorem natDigits_head_digit (n : Nat) :
    ∃ c tail, natDigits n = c :: tail ∧ isDigitCh c = true ∧ (48 ≤ c.toNat ∧ c.toNat ≤ 57) := by
  induction n using Nat.strong_induction_on with
  | _ n ih =>
    by_cases h : n < 10
    · refine ⟨digitChar n, [], ?_⟩
      rw [natDigits_unfold, if_pos h]
      refine ⟨rfl, isDigitCh_digitChar n h, ?_⟩
      rw [digitChar_toNat n h]
      omega
    · obtain ⟨c, tail, heq, hdig, hrange⟩ := ih (n / 10) (Nat.div_lt_self (by omega) (by omega))
      refine ⟨c, tail ++ [digitChar (n % 10)], ?_, hdig, hrange⟩
      rw [natDigits_unfold, if_neg h, heq]
      simp

theorem natDigits_head_ne_zero (n : Nat) (hn : 0 < n) :
    ∃ c tail, natDigits n = c :: tail ∧ isDigitCh c = true ∧ c ≠ '0' := by
  induction n using Nat.strong_induction_on with
  | _ n ih =>
    by_cases h : n < 10
    · refine ⟨digitChar n, [], ?_⟩
      rw [natDigits_unfold, if_pos h]
      refine ⟨rfl, isDigitCh_digitChar n h, ?_⟩
      intro hc
      have := congrArg Char.toNat hc
      rw [digitChar_toNat n h] at this
      have h0 : ('0' : Char).toNat = 48 := by decide
      omega
    · obtain ⟨c, tail, heq, hdig, hne⟩ := ih (n / 10) (Nat.div_lt_self (by omega) (by omega))
        (Nat.div_pos (by omega) (by omega))
      refine ⟨c, tail ++ [digitChar (n % 10)], ?_, hdig, hne⟩
      rw [natDigits_unfold, if_neg h, heq]
      simp

/-!
JSON string escaping, as serde_json produces it: double quote and
backslash are escaped, control characters below 0x20 use the short
escapes for backspace, tab, newline, form feed and carriage return and
a lowercase hexadecimal escape otherwise, every other scalar is emitted
raw.  The parser accepts exactly the escape forms serde_json does,
except that surrogate-pair escapes (never produced by the encoder) are
out of the model.
-/

/-- Lowercase hexadecimal digit character of a value below 16. -/
def hexDigitChar (d : Nat) : Char :=
  if d < 10 then digitChar d else Char.ofNat (87 + d)

/-- Numeric value of a hexadecimal digit character. -/
def hexVal (c : Char) : Option Nat :=
  if 48 ≤ c.toNat ∧ c.toNat ≤ 57 then some (c.toNat - 48)
  else if 97 ≤ c.toNat ∧ c.toNat ≤ 102 then some (c.toNat - 87)
  else if 65 ≤ c.toNat ∧ c.toNat ≤ 70 then some (c.toNat - 55)
  else none

/-- The escape sequence serde_json emits for one character. -/
def escapeChar (c : Char) : List Char :=
  if c = '"' then ['\\', '"']
  else if c = '\\' then ['\\', '\\']
  else if c.toNat = 8 then ['\\', 'b']
  else if c.toNat = 9 then ['\\', 't']
  else if c.toNat = 10 then ['\\', 'n']
  else if c.toNat = 12 then ['\\', 'f']
  else if c.toNat = 13 then ['\\', 'r']
  else if c.toNat < 32 then
    ['\\', 'u', '0', '0', hexDigitChar (c.toNat / 16), hexDigitChar (c.toNat % 16)]
  else [c]

/-- The escaped body of a JSON string. -/
def escBody : List Char → List Char
  | [] => []
  | c :: rest => escapeChar c ++ escBody rest

/-- A JSON string literal: quote, escaped body, quote. -/
def encString (s : List Char) : List Char := '"' :: (escBody s ++ ['"'])

/-- Decode one short escape code (the character after the backslash). -/
def escDecode (e : Char) : Option Char :=
  if e = '"' then some '"'
  else if e = '\\' then some '\\'
  else if e = '/' then some '/'
  else if e = 'b' then some (Char.ofNat 8)
  else if e = 'f' then some (Char.ofNat 12)
  else if e = 'n' then some (Char.ofNat 10)
  else if e = 'r' then some (Char.ofNat 13)
  else if e = 't' then some (Char.ofNat 9)
  else none

/-- Parse the body of a JSON string up to and including the closing
quote, returning the decoded characters and the remaining input.
Mirrors serde_json: raw control characters are rejected, escapes are
the eight short ones and the four-hex-digit form (restricted here to
non-surrogate scalars). -/
def parseStrBody : List Char → Option (List Char × List Char)
  | [] => none
  | c :: rest =>
      if c = '"' then some ([], rest)
      else if c = '\\' then
        match rest with
        | [] => none
        | e :: rest2 =>
            if e = 'u' then
              match rest2 with
              | h1 :: h2 :: h3 :: h4 :: rest6 =>
                  match hexVal h1, hexVal h2, hexVal h3, hexVal h4 with
                  | some d1, some d2, some d3, some d4 =>
                      let code := ((d1 * 16 + d2) * 16 + d3) * 16 + d4
                      if code < 55296 ∨ 57344 ≤ code then
                        (parseStrBody rest6).map (fun p => (Char.ofNat code :: p.1, p.2))
                      else none
                  | _, _, _, _ => none
              | _ => none
            else
              match escDecode e with
              | some ec => (parseStrBody rest2).map (fun p => (ec :: p.1, p.2))
              | none => none
      else if 32 ≤ c.toNat then (parseStrBody rest).map (fun p => (c :: p.1, p.2))
      else none

theorem hexDigitChar_toNat (d : Nat) (h : d < 16) :
    (hexDigitChar d).toNat = if d < 10 then 48 + d else 87 + d := by
  by_cases h10 : d < 10
  · simp [hexDigitChar, h10, digitChar_toNat d h10]
  · have hv : (87 + d).isValidChar := Or.inl (by omega)
    simp only [hexDigitChar, h10, if_false]
    simp [Char.ofNat, hv, Char.ofNatAux, Char.toNat, UInt32.toNat]

theorem hexVal_hexDigitChar (d : Nat) (h : d < 16) : hexVal (hexDigitChar d) = some d := by
  have ht := hexDigitChar_toNat d h
  by_cases h10 : d < 10
  · rw [if_pos h10] at ht
    rw [hexVal, if_pos (by omega)]
    congr 1
    omega
  · rw [if_neg h10] at ht
    rw [hexVal, if_neg (by omega), if_pos (by omega)]
    congr 1
    omega

theorem charOfNat_toNat (c : Char) : Char.ofNat c.toNat = c := Char.ofNat_toNat c

theorem char_toNat_eq_iff (c d : Char) : c = d ↔ c.toNat = d.toNat := by
  constructor
  · intro h; rw [h]
  · intro h
    have := congrArg Char.ofNat h
    rwa [Char.ofNat_toNat, Char.ofNat_toNat] at this


theorem parseStrBody_escBody (s : List Char) :
    ∀ rest : List Char, parseStrBody (escBody s ++ ('"' :: rest)) = some (s, rest) := by
  induction s with
  | nil =>
      intro rest
      rw [escBody, List.nil_append, parseStrBody.eq_def]
      simp
  | cons c s ih =>
      intro rest
      simp only [escBody, List.append_assoc]
      by_cases hq : c = '"'
      · subst hq
        rw [show escapeChar '"' = ['\\', '"'] from by decide]
        simp only [List.cons_append, List.nil_append]
        rw [parseStrBody.eq_def]
        simp only [if_neg (by decide : ¬('\\' : Char) = '"'), if_pos rfl]
        rw [show escDecode '"' = some '"' from by decide]
        rw [ih rest]
        rfl
      · by_cases hb : c = '\\'
        · subst hb
          rw [show escapeChar '\\' = ['\\', '\\'] from by decide]
          simp only [List.cons_append, List.nil_append]
          rw [parseStrBody.eq_def]
          simp only [if_neg (by decide : ¬('\\' : Char) = '"'), if_pos rfl]
          rw [show escDecode '\\' = some '\\' from by decide]
          rw [ih rest]
          rfl
        · by_cases h8 : c.toNat = 8
          · have hc : c = Char.ofNat 8 := by rw [char_toNat_eq_iff, h8]; decide
            subst hc
            rw [show escapeChar (Char.ofNat 8) = ['\\', 'b'] from by decide]
            simp only [List.cons_append, List.nil_append]
            rw [parseStrBody.eq_def]
            simp only [if_neg (by decide : ¬('\\' : Char) = '"'), if_pos rfl]
            rw [show escDecode 'b' = some (Char.ofNat 8) from by decide]
            rw [ih rest]
            rfl
          · by_cases h9 : c.toNat = 9
            · have hc : c = Char.ofNat 9 := by rw [char_toNat_eq_iff, h9]; decide
              subst hc
              rw [show escapeChar (Char.ofNat 9) = ['\\', 't'] from by decide]
              simp only [List.cons_append, List.nil_append]
              rw [parseStrBody.eq_def]
              simp only [if_neg (by decide : ¬('\\' : Char) = '"'), if_pos rfl]
              rw [show escDecode 't' = some (Char.ofNat 9) from by decide]
              rw [ih rest]
              rfl
            · by_cases h10 : c.toNat = 10
              · have hc : c = Char.ofNat 10 := by rw [char_toNat_eq_iff, h10]; decide
                subst hc
                rw [show escapeChar (Char.ofNat 10) = ['\\', 'n'] from by decide]
                simp only [List.cons_append, List.nil_append]
                rw [parseStrBody.eq_def]
                simp only [if_neg (by decide : ¬('\\' : Char) = '"'), if_pos rfl]
                rw [show escDecode 'n' = some (Char.ofNat 10) from by decide]
                rw [ih rest]
                rfl
              · by_cases h12 : c.toNat = 12
                · have hc : c = Char.ofNat 12 := by rw [char_toNat_eq_iff, h12]; decide
                  subst hc
                  rw [show escapeChar (Char.ofNat 12) = ['\\', 'f'] from by decide]
                  simp only [List.cons_append, List.nil_append]
                  rw [parseStrBody.eq_def]
                  simp only [if_neg (by decide : ¬('\\' : Char) = '"'), if_pos rfl]
                  rw [show escDecode 'f' = some (Char.ofNat 12) from by decide]
                  rw [ih rest]
                  rfl
                · by_cases h13 : c.toNat = 13
                  · have hc : c = Char.ofNat 13 := by rw [char_toNat_eq_iff, h13]; decide
                    subst hc
                    rw [show escapeChar (Char.ofNat 13) = ['\\', 'r'] from by decide]
                    simp only [List.cons_append, List.nil_append]
                    rw [parseStrBody.eq_def]
                    simp only [if_neg (by decide : ¬('\\' : Char) = '"'), if_pos rfl]
                    rw [show escDecode 'r' = some (Char.ofNat 13) from by decide]
                    rw [ih rest]
                    rfl
                  · by_cases hctl : c.toNat < 32
                    · rw [escapeChar, if_neg hq, if_neg hb, if_neg h8, if_neg h9,
                        if_neg h10, if_neg h12, if_neg h13, if_pos hctl]
                      have hhi : c.toNat / 16 < 16 := by omega
                      have hlo : c.toNat % 16 < 16 := by omega
                      simp only [List.cons_append, List.nil_append]
                      rw [parseStrBody.eq_def]
                      simp only [if_neg (by decide : ¬('\\' : Char) = '"'), if_pos rfl]
                      rw [hexVal_hexDigitChar _ hhi, hexVal_hexDigitChar _ hlo]
                      rw [show hexVal '0' = some 0 from by decide]
                      simp only []
                      have hcode : ((0 * 16 + 0) * 16 + c.toNat / 16) * 16 + c.toNat % 16
                          = c.toNat := by omega
                      rw [hcode, if_pos (Or.inl (by omega)), ih rest, charOfNat_toNat]
                      rfl
                    · rw [escapeChar, if_neg hq, if_neg hb, if_neg h8, if_neg h9,
                        if_neg h10, if_neg h12, if_neg h13, if_neg hctl]
                      simp only [List.cons_append, List.nil_append]
                      rw [parseStrBody.eq_def]
                      simp only []
                      rw [if_neg hq, if_neg hb, if_pos (by omega : 32 ≤ c.toNat), ih rest]
                      rfl

/-- Decimal notation of an integer, as serde_json prints it. -/
def intChars (n : Int) : List Char :=
  if n < 0 then '-' :: natDigits (-n).toNat else natDigits n.toNat

/-- Parse a JSON natural-number literal (no leading zeros: a literal
starting with a zero is just the single digit zero). -/
def parseNat : List Char → Option (Nat × List Char)
  | [] => none
  | c :: rest =>
      if c = '0' then some (0, rest)
      else if isDigitCh c then some (parseDigitsAcc (c :: rest) 0)
      else none

/-- Parse a JSON integer literal with its optional leading minus. -/
def parseNum : List Char → Option (JVal × List Char)
  | [] => none
  | c :: rest =>
      if c = '-' then (parseNat rest).map (fun p => (JVal.num (-(p.1 : Int)), p.2))
      else (parseNat (c :: rest)).map (fun p => (JVal.num (p.1 : Int), p.2))

/-- The continuation after an encoded number must not begin with a digit
(inside encoded JSON it is a comma, a closing bracket or empty). -/
def delimOk : List Char → Prop
  | [] => True
  | c :: _ => isDigitCh c = false

theorem parseDigitsAcc_delim (rest : List Char) (acc : Nat) (h : delimOk rest) :
    parseDigitsAcc rest acc = (acc, rest) := by
  cases rest with
  | nil => simp [parseDigitsAcc]
  | cons c tail =>
      simp only [delimOk] at h
      simp [parseDigitsAcc, h]

theorem parseNat_natDigits (n : Nat) (rest : List Char) (h : delimOk rest) :
    parseNat (natDigits n ++ rest) = some (n, rest) := by
  by_cases h0 : n = 0
  · subst h0
    rw [show natDigits 0 = ['0'] from by decide]
    simp [parseNat]
  · obtain ⟨c, tail, heq, hdig, hne⟩ := natDigits_head_ne_zero n (by omega)
    rw [heq]
    simp only [List.cons_append, parseNat]
    rw [if_neg (fun hc => hne hc), if_pos hdig]
    have := parseDigitsAcc_natDigits n 0 rest
    rw [heq] at this
    simp only [List.cons_append] at this
    rw [this, parseDigitsAcc_delim rest _ h]
    simp

theorem parseNum_intChars (n : Int) (rest : List Char) (h : delimOk rest) :
    parseNum (intChars n ++ rest) = some (JVal.num n, rest) := by
  by_cases hneg : n < 0
  · rw [intChars, if_pos hneg]
    simp only [List.cons_append, parseNum, if_pos rfl]
    rw [parseNat_natDigits _ rest h]
    simp only [Option.map_some']
    have hval : -(((-n).toNat : Int)) = n := by omega
    rw [hval]
    simp
  · rw [intChars, if_neg hneg]
    obtain ⟨c, tail, heq, hdig, hrange⟩ := natDigits_head_digit n.toNat
    rw [heq]
    simp only [List.cons_append, parseNum]
    have hnotminus : ¬c = '-' := by
      intro hc
      rw [char_toNat_eq_iff] at hc
      have : ('-' : Char).toNat = 45 := by decide
      omega
    rw [if_neg hnotminus]
    have := parseNat_natDigits n.toNat rest h
    rw [heq] at this
    simp only [List.cons_append] at this
    rw [this]
    simp only [Option.map_some']
    have hval : ((n.toNat : Int)) = n := by omega
    rw [hval]

/-!
The JSON text encoder, mirroring serde_json's compact serializer
(serde_json::to_vec of a map): no whitespace, object members as
quoted key, colon, value, and entries separated by commas.
-/

mutual

/-- serde_json's compact text for one value. -/
def encVal : JVal → List Char
  | JVal.null => ['n', 'u', 'l', 'l']
  | JVal.bool true => ['t', 'r', 'u', 'e']
  | JVal.bool false => ['f', 'a', 'l', 's', 'e']
  | JVal.num n => intChars n
  | JVal.str s => encString s
  | JVal.arr [] => ['[', ']']
  | JVal.arr (x :: xs) => '[' :: (encVal x ++ encElems xs) ++ [']']
  | JVal.obj [] => ['\x7b', '\x7d']
  | JVal.obj (e :: es) => '\x7b' :: (encMember e ++ encMembers es) ++ ['\x7d']

/-- Trailing array elements, each preceded by a comma. -/
def encElems : List JVal → List Char
  | [] => []
  | x :: xs => ',' :: (encVal x ++ encElems xs)

/-- One object member: quoted key, colon, value. -/
def encMember : Key × JVal → List Char
  | (k, v) => encString k ++ (':' :: encVal v)

/-- Trailing object members, each preceded by a comma. -/
def encMembers : List (Key × JVal) → List Char
  | [] => []
  | e :: es => ',' :: (encMember e ++ encMembers es)

end

mutual

/-- Structural size of a value; a lower bound for the parser fuel. -/
def sizeV : JVal → Nat
  | JVal.null => 1
  | JVal.bool _ => 1
  | JVal.num _ => 1
  | JVal.str _ => 1
  | JVal.arr xs => sizeElems xs + 1
  | JVal.obj es => sizeMembers es + 1

def sizeElems : List JVal → Nat
  | [] => 0
  | x :: xs => sizeV x + sizeElems xs + 1

def sizeMembers : List (Key × JVal) → Nat
  | [] => 0
  | e :: es => sizeV e.2 + sizeMembers es + 1

end

mutual

/-- Recursive-descent parser for one compact JSON value; the fuel bounds
the nesting and list length, mirroring serde_json's grammar on the texts
the encoder produces (no interior whitespace). -/
def parseVal : Nat → List Char → Option (JVal × List Char)
  | 0, _ => none
  | _ + 1, [] => none
  | fuel + 1, c :: rest =>
      if c = 'n' then
        match rest with
        | 'u' :: 'l' :: 'l' :: r => some (JVal.null, r)
        | _ => none
      else if c = 't' then
        match rest with
        | 'r' :: 'u' :: 'e' :: r => some (JVal.bool true, r)
        | _ => none
      else if c = 'f' then
        match rest with
        | 'a' :: 'l' :: 's' :: 'e' :: r => some (JVal.bool false, r)
        | _ => none
      else if c = '"' then
        (parseStrBody rest).map (fun p => (JVal.str p.1, p.2))
      else if c = '[' then
        match rest with
        | [] => none
        | r0 :: rtail =>
            if r0 = ']' then some (JVal.arr [], rtail)
            else (parseElems fuel (r0 :: rtail)).map (fun p => (JVal.arr p.1, p.2))
      else if c = '\x7b' then
        match rest with
        | [] => none
        | r0 :: rtail =>
            if r0 = '\x7d' then some (JVal.obj [], rtail)
            else (parseMembers fuel (r0 :: rtail)).map (fun p => (JVal.obj p.1, p.2))
      else parseNum (c :: rest)

/-- Parse one or more comma-separated array elements and the closing
square bracket. -/
def parseElems : Nat → List Char → Option (List JVal × List Char)
  | 0, _ => none
  | fuel + 1, input =>
      match parseVal fuel input with
      | none => none
      | some (v, r) =>
          match r with
          | ',' :: r2 =>
              match parseElems fuel r2 with
              | none => none
              | some (vs, r3) => some (v :: vs, r3)
          | ']' :: r2 => some ([v], r2)
          | _ => none

/-- Parse one or more comma-separated object members and the closing
curly bracket. -/
def parseMembers : Nat → List Char → Option (List (Key × JVal) × List Char)
  | 0, _ => none
  | fuel + 1, input =>
      match input with
      | '"' :: rest =>
          match parseStrBody rest with
          | none => none
          | some (k, r1) =>
              match r1 with
              | ':' :: r2 =>
                  match parseVal fuel r2 with
                  | none => none
                  | some (v, r3) =>
                      match r3 with
                      | ',' :: r4 =>
                          match parseMembers fuel r4 with
                          | none => none
                          | some (kvs, r5) => some ((k, v) :: kvs, r5)
                      | '\x7d' :: r4 => some ([(k, v)], r4)
                      | _ => none
              | _ => none
      | _ => none

end

theorem sizeV_pos (v : JVal) : 1 ≤ sizeV v := by
  cases v <;> simp [sizeV]

theorem delimOk_encElems (xs : List JVal) (rest : List Char) :
    delimOk (encElems xs ++ (']' :: rest)) := by
  cases xs with
  | nil =>
      simp only [encElems, List.nil_append, delimOk]
      decide
  | cons x xs => simp [encElems, delimOk, isDigitCh]

theorem delimOk_encMembers (es : List (Key × JVal)) (rest : List Char) :
    delimOk (encMembers es ++ ('\x7d' :: rest)) := by
  cases es with
  | nil =>
      simp only [encMembers, List.nil_append, delimOk]
      decide
  | cons e es => simp [encMembers, delimOk, isDigitCh]

theorem intChars_head (n : Int) :
    ∃ c cs, intChars n = c :: cs ∧ (c.toNat = 45 ∨ (48 ≤ c.toNat ∧ c.toNat ≤ 57)) := by
  by_cases hneg : n < 0
  · refine ⟨'-', natDigits (-n).toNat, ?_, Or.inl (by decide)⟩
    rw [intChars, if_pos hneg]
  · obtain ⟨c, tail, heq, hdig, hrange⟩ := natDigits_head_digit n.toNat
    refine ⟨c, tail, ?_, Or.inr hrange⟩
    rw [intChars, if_neg hneg, heq]

theorem num_dispatch_ne (c : Char)
    (h : c.toNat = 45 ∨ (48 ≤ c.toNat ∧ c.toNat ≤ 57)) :
    ¬c = 'n' ∧ ¬c = 't' ∧ ¬c = 'f' ∧ ¬c = '"' ∧ ¬c = '[' ∧ ¬c = '\x7b' := by
  refine ⟨?_, ?_, ?_, ?_, ?_, ?_⟩ <;> intro hc <;> rw [char_toNat_eq_iff] at hc
  · have : ('n' : Char).toNat = 110 := by decide
    omega
  · have : ('t' : Char).toNat = 116 := by decide
    omega
  · have : ('f' : Char).toNat = 102 := by decide
    omega
  · have : ('"' : Char).toNat = 34 := by decide
    omega
  · have : ('[' : Char).toNat = 91 := by decide
    omega
  · have : ('\x7b' : Char).toNat = 123 := by decide
    omega

theorem encVal_head (v : JVal) :
    ∃ c cs, encVal v = c :: cs ∧ ¬c = ']' ∧ ¬c = '\x7d' := by
  cases v with
  | null => exact ⟨'n', _, rfl, by decide, by decide⟩
  | bool b =>
      cases b with
      | true => exact ⟨'t', _, rfl, by decide, by decide⟩
      | false => exact ⟨'f', _, rfl, by decide, by decide⟩
  | num n =>
      obtain ⟨c, cs, heq, hr⟩ := intChars_head n
      refine ⟨c, cs, heq, ?_, ?_⟩ <;> intro hc <;> rw [char_toNat_eq_iff] at hc
      · have : (']' : Char).toNat = 93 := by decide
        omega
      · have : ('\x7d' : Char).toNat = 125 := by decide
        omega
  | str s => exact ⟨'"', _, rfl, by decide, by decide⟩
  | arr xs =>
      cases xs with
      | nil => exact ⟨'[', _, rfl, by decide, by decide⟩
      | cons x xs => exact ⟨'[', _, rfl, by decide, by decide⟩
  | obj es =>
      cases es with
      | nil => exact ⟨'\x7b', _, rfl, by decide, by decide⟩
      | cons e es => exact ⟨'\x7b', _, rfl, by decide, by decide⟩

theorem parseVal_succ (fuel : Nat) (c : Char) (rest : List Char) :
    parseVal (fuel + 1) (c :: rest) =
      (if c = 'n' then
        match rest with
        | 'u' :: 'l' :: 'l' :: r => some (JVal.null, r)
        | _ => none
      else if c = 't' then
        match rest with
        | 'r' :: 'u' :: 'e' :: r => some (JVal.bool true, r)
        | _ => none
      else if c = 'f' then
        match rest with
        | 'a' :: 'l' :: 's' :: 'e' :: r => some (JVal.bool false, r)
        | _ => none
      else if c = '"' then
        (parseStrBody rest).map (fun p => (JVal.str p.1, p.2))
      else if c = '[' then
        match rest with
        | [] => none
        | r0 :: rtail =>
            if r0 = ']' then some (JVal.arr [], rtail)
            else (parseElems fuel (r0 :: rtail)).map (fun p => (JVal.arr p.1, p.2))
      else if c = '\x7b' then
        match rest with
        | [] => none
        | r0 :: rtail =>
            if r0 = '\x7d' then some (JVal.obj [], rtail)
            else (parseMembers fuel (r0 :: rtail)).map (fun p => (JVal.obj p.1, p.2))
      else parseNum (c :: rest)) := rfl

theorem parseElems_succ (fuel : Nat) (input : List Char) :
    parseElems (fuel + 1) input =
      (match parseVal fuel input with
      | none => none
      | some (v, r) =>
          match r with
          | ',' :: r2 =>
              match parseElems fuel r2 with
              | none => none
              | some (vs, r3) => some (v :: vs, r3)
          | ']' :: r2 => some ([v], r2)
          | _ => none) := rfl

theorem parseMembers_succ (fuel : Nat) (input : List Char) :
    parseMembers (fuel + 1) input =
      (match input with
      | '"' :: rest =>
          match parseStrBody rest with
          | none => none
          | some (k, r1) =>
              match r1 with
              | ':' :: r2 =>
                  match parseVal fuel r2 with
                  | none => none
                  | some (v, r3) =>
                      match r3 with
                      | ',' :: r4 =>
                          match parseMembers fuel r4 with
                          | none => none
                          | some (kvs, r5) => some ((k, v) :: kvs, r5)
                      | '\x7d' :: r4 => some ([(k, v)], r4)
                      | _ => none
              | _ => none
      | _ => none) := rfl

theorem parse_encVal (fuel : Nat) :
    (∀ v rest, sizeV v ≤ fuel → delimOk rest →
        parseVal fuel (encVal v ++ rest) = some (v, rest)) ∧
    (∀ x xs rest, sizeElems (x :: xs) ≤ fuel → delimOk rest →
        parseElems fuel (encVal x ++ (encElems xs ++ (']' :: rest))) = some (x :: xs, rest)) ∧
    (∀ e es rest, sizeMembers (e :: es) ≤ fuel → delimOk rest →
        parseMembers fuel (encMember e ++ (encMembers es ++ ('\x7d' :: rest)))
          = some (e :: es, rest)) := by
  induction fuel with
  | zero =>
      refine ⟨?_, ?_, ?_⟩
      · intro v rest hs _
        have := sizeV_pos v
        omega
      · intro x xs rest hs _
        simp only [sizeElems] at hs
        have := sizeV_pos x
        omega
      · intro e es rest hs _
        simp only [sizeMembers] at hs
        have := sizeV_pos e.2
        omega
  | succ fuel ih =>
      obtain ⟨ihV, ihE, ihM⟩ := ih
      refine ⟨?_, ?_, ?_⟩
      · intro v rest hs hdelim
        cases v with
        | null =>
            rw [show encVal JVal.null = ['n', 'u', 'l', 'l'] from rfl]
            simp only [List.cons_append, List.nil_append]
            rw [parseVal_succ]
            simp
        | bool b =>
            cases b with
            | true =>
                rw [show encVal (JVal.bool true) = ['t', 'r', 'u', 'e'] from rfl]
                simp only [List.cons_append, List.nil_append]
                rw [parseVal_succ]
                simp
            | false =>
                rw [show encVal (JVal.bool false) = ['f', 'a', 'l', 's', 'e'] from rfl]
                simp only [List.cons_append, List.nil_append]
                rw [parseVal_succ]
                simp
        | num n =>
            obtain ⟨c, cs, heq, hr⟩ := intChars_head n
            obtain ⟨hn, ht, hf, hq, hbr, hob⟩ := num_dispatch_ne c hr
            rw [show encVal (JVal.num n) = intChars n from rfl, heq]
            simp only [List.cons_append]
            rw [parseVal_succ]
            rw [if_neg hn, if_neg ht, if_neg hf, if_neg hq, if_neg hbr, if_neg hob]
            have harg : intChars n ++ rest = c :: (cs ++ rest) := by
              rw [heq]
              rfl
            rw [← harg]
            exact parseNum_intChars n rest hdelim
        | str s =>
            rw [show encVal (JVal.str s) = '"' :: (escBody s ++ ['"']) from rfl]
            simp only [List.cons_append, List.append_assoc, List.singleton_append,
              List.nil_append]
            rw [parseVal_succ]
            simp only [if_neg (by decide : ¬('"' : Char) = 'n'),
              if_neg (by decide : ¬('"' : Char) = 't'),
              if_neg (by decide : ¬('"' : Char) = 'f'), if_pos rfl]
            rw [parseStrBody_escBody s rest]
            rfl
        | arr xs =>
            cases xs with
            | nil =>
                rw [show encVal (JVal.arr []) = ['[', ']'] from rfl]
                simp only [List.cons_append, List.nil_append]
                rw [parseVal_succ]
                simp
            | cons x xs =>
                rw [show encVal (JVal.arr (x :: xs))
                    = '[' :: (encVal x ++ encElems xs) ++ [']'] from rfl]
                simp only [List.cons_append, List.append_assoc, List.singleton_append,
                  List.nil_append]
                rw [parseVal_succ]
                simp only [if_neg (by decide : ¬('[' : Char) = 'n'),
                  if_neg (by decide : ¬('[' : Char) = 't'),
                  if_neg (by decide : ¬('[' : Char) = 'f'),
                  if_neg (by decide : ¬('[' : Char) = '"'), if_pos rfl]
                obtain ⟨c, cs, hxeq, hne1, hne2⟩ := encVal_head x
                have harg : encVal x ++ (encElems xs ++ (']' :: rest))
                    = c :: (cs ++ (encElems xs ++ (']' :: rest))) := by
                  rw [hxeq]
                  rfl
                rw [harg]
                simp only []
                rw [if_neg hne1, ← harg]
                have hsz : sizeElems (x :: xs) ≤ fuel := by
                  simp only [sizeV] at hs
                  omega
                rw [ihE x xs rest hsz hdelim]
                rfl
        | obj es =>
            cases es with
            | nil =>
                rw [show encVal (JVal.obj []) = ['\x7b', '\x7d'] from rfl]
                simp only [List.cons_append, List.nil_append]
                rw [parseVal_succ]
                simp
            | cons e es =>
                rw [show encVal (JVal.obj (e :: es))
                    = '\x7b' :: (encMember e ++ encMembers es) ++ ['\x7d'] from rfl]
                simp only [List.cons_append, List.append_assoc, List.singleton_append,
                  List.nil_append]
                rw [parseVal_succ]
                simp only [if_neg (by decide : ¬('\x7b' : Char) = 'n'),
                  if_neg (by decide : ¬('\x7b' : Char) = 't'),
                  if_neg (by decide : ¬('\x7b' : Char) = 'f'),
                  if_neg (by decide : ¬('\x7b' : Char) = '"'),
                  if_neg (by decide : ¬('\x7b' : Char) = '['), if_pos rfl]
                obtain ⟨k, v⟩ := e
                have harg : encMember (k, v) ++ (encMembers es ++ ('\x7d' :: rest))
                    = '"' :: (escBody k
                        ++ ('"' :: (':' :: (encVal v
                            ++ (encMembers es ++ ('\x7d' :: rest)))))) := by
                  rw [show encMember (k, v) = encString k ++ (':' :: encVal v) from rfl]
                  rw [show encString k = '"' :: (escBody k ++ ['"']) from rfl]
                  simp
                rw [harg]
                simp only []
                rw [if_neg (by decide : ¬('"' : Char) = '\x7d'), ← harg]
                have hsz : sizeMembers ((k, v) :: es) ≤ fuel := by
                  simp only [sizeV] at hs
                  omega
                rw [ihM (k, v) es rest hsz hdelim]
                rfl
      · intro x xs rest hs hdelim
        rw [parseElems_succ]
        have h1 : sizeV x ≤ fuel := by
          simp only [sizeElems] at hs
          omega
        rw [ihV x (encElems xs ++ (']' :: rest)) h1 (delimOk_encElems xs rest)]
        cases xs with
        | nil =>
            simp [encElems]
        | cons y ys =>
            simp only [encElems, List.cons_append, List.append_assoc]
            have h2 : sizeElems (y :: ys) ≤ fuel := by
              simp only [sizeElems] at hs ⊢
              have := sizeV_pos x
              omega
            rw [ihE y ys rest h2 hdelim]
      · intro e es rest hs hdelim
        obtain ⟨k, v⟩ := e
        rw [parseMembers_succ]
        have harg : encMember (k, v) ++ (encMembers es ++ ('\x7d' :: rest))
            = '"' :: (escBody k
                ++ ('"' :: (':' :: (encVal v ++ (encMembers es ++ ('\x7d' :: rest)))))) := by
          rw [show encMember (k, v) = encString k ++ (':' :: encVal v) from rfl]
          rw [show encString k = '"' :: (escBody k ++ ['"']) from rfl]
          simp
        rw [harg]
        simp only []
        rw [parseStrBody_escBody k
          (':' :: (encVal v ++ (encMembers es ++ ('\x7d' :: rest))))]
        simp only []
        have h1 : sizeV v ≤ fuel := by
          simp only [sizeMembers] at hs
          omega
        rw [ihV v (encMembers es ++ ('\x7d' :: rest)) h1 (delimOk_encMembers es rest)]
        cases es with
        | nil =>
            simp [encMembers]
        | cons f fs =>
            simp only [encMembers, List.cons_append, List.append_assoc]
            have h2 : sizeMembers (f :: fs) ≤ fuel := by
              simp only [sizeMembers] at hs ⊢
              have := sizeV_pos v
              omega
            rw [ihM f fs rest h2 hdelim]

theorem natDigits_length_pos (n : Nat) : 1 ≤ (natDigits n).length := by
  cases h : natDigits n with
  | nil => exact absurd h (natDigits_ne_nil n)
  | cons c tail => simp

theorem intChars_length_pos (n : Int) : 1 ≤ (intChars n).length := by
  rw [intChars]
  split
  · simp
  · exact natDigits_length_pos _

mutual

theorem sizeV_le_encLen : ∀ v : JVal, sizeV v ≤ (encVal v).length
  | JVal.null => by simp [sizeV, encVal]
  | JVal.bool true => by simp [sizeV, encVal]
  | JVal.bool false => by simp [sizeV, encVal]
  | JVal.num n => by
      have := intChars_length_pos n
      simp only [sizeV, encVal]
      omega
  | JVal.str s => by simp [sizeV, encVal, encString]
  | JVal.arr [] => by simp [sizeV, sizeElems, encVal]
  | JVal.arr (x :: xs) => by
      have h1 := sizeV_le_encLen x
      have h2 := sizeElems_le_encLen xs
      simp only [sizeV, sizeElems, encVal, List.length_cons, List.length_append,
        List.length_singleton]
      omega
  | JVal.obj [] => by simp [sizeV, sizeMembers, encVal]
  | JVal.obj (e :: es) => by
      have h1 := sizeMember_le_encLen e
      have h2 := sizeMembers_le_encLen es
      simp only [sizeV, sizeMembers, encVal, List.length_cons, List.length_append,
        List.length_singleton]
      omega

theorem sizeElems_le_encLen : ∀ xs : List JVal, sizeElems xs ≤ (encElems xs).length
  | [] => by simp [sizeElems, encElems]
  | x :: xs => by
      have h1 := sizeV_le_encLen x
      have h2 := sizeElems_le_encLen xs
      simp only [sizeElems, encElems, List.length_cons, List.length_append]
      omega

theorem sizeMember_le_encLen : ∀ e : Key × JVal, sizeV e.2 ≤ (encMember e).length
  | (k, v) => by
      have h1 := sizeV_le_encLen v
      simp only [encMember, List.length_append, List.length_cons]
      omega

theorem sizeMembers_le_encLen :
    ∀ es : List (Key × JVal), sizeMembers es ≤ (encMembers es).length
  | [] => by simp [sizeMembers, encMembers]
  | e :: es => by
      have h1 := sizeMember_le_encLen e
      have h2 := sizeMembers_le_encLen es
      simp only [sizeMembers, encMembers, List.length_cons, List.length_append]
      omega

end

/-!
Top-level text decoding, mirroring serde_json::from_slice into a
HashMap of String to Value: optional surrounding whitespace, a single
top-level object, nothing but whitespace after it.  Duplicate keys in
the text overwrite earlier ones, exactly as deserializing into a
HashMap does; this is the fold below.
-/

/-- JSON whitespace. -/
def isWsCh (c : Char) : Bool :=
  decide (c.toNat = 32 ∨ c.toNat = 9 ∨ c.toNat = 10 ∨ c.toNat = 13)

/-- Drop leading JSON whitespace. -/
def skipWs : List Char → List Char
  | [] => []
  | c :: rest => if isWsCh c then skipWs rest else c :: rest

/-- Failure classes of the embedded operations, following the error
taxonomy of the plugin (I/O, codec encode, codec decode, event
emission). -/
inductive StoreErr where
  | ioErr
  | serErr
  | deserErr
  | emitErr
deriving DecidableEq

instance {e a : Type} [DecidableEq e] [DecidableEq a] : DecidableEq (Except e a) := fun x y =>
  match x, y with
  | Except.ok u, Except.ok v =>
      if h : u = v then isTrue (by rw [h]) else isFalse (by intro hc; cases hc; exact h rfl)
  | Except.error u, Except.error v =>
      if h : u = v then isTrue (by rw [h]) else isFalse (by intro hc; cases hc; exact h rfl)
  | Except.ok _, Except.error _ => isFalse (by intro hc; cases hc)
  | Except.error _, Except.ok _ => isFalse (by intro hc; cases hc)

/-- Collect parsed object members into the mapping, later keys
overwriting earlier ones (HashMap deserialization semantics). -/
def listToMap (kvs : List (Key × JVal)) : JMap := alistExtend [] kvs

/-- Parse a full JSON text as a string-keyed mapping. -/
def jsonParseText (text : List Char) : Except StoreErr JMap :=
  let t := skipWs text
  match parseVal (t.length + 1) t with
  | some (JVal.obj kvs, rest) =>
      if skipWs rest = [] then Except.ok (listToMap kvs) else Except.error StoreErr.deserErr
  | _ => Except.error StoreErr.deserErr

theorem skipWs_not_ws (c : Char) (l : List Char) (h : isWsCh c = false) :
    skipWs (c :: l) = c :: l := by
  simp [skipWs, h]

theorem encVal_obj_head (m : JMap) :
    ∃ cs, encVal (JVal.obj m) = '\x7b' :: cs := by
  cases m with
  | nil => exact ⟨_, rfl⟩
  | cons e es => exact ⟨_, rfl⟩

theorem jsonParseText_encVal (m : JMap) :
    jsonParseText (encVal (JVal.obj m)) = Except.ok (listToMap m) := by
  obtain ⟨cs, hcs⟩ := encVal_obj_head m
  have hskip : skipWs (encVal (JVal.obj m)) = encVal (JVal.obj m) := by
    rw [hcs]
    exact skipWs_not_ws _ _ (by decide)
  rw [jsonParseText]
  simp only [hskip]
  have hfuel : sizeV (JVal.obj m) ≤ (encVal (JVal.obj m)).length + 1 := by
    have := sizeV_le_encLen (JVal.obj m)
    omega
  have hparse := (parse_encVal ((encVal (JVal.obj m)).length + 1)).1 (JVal.obj m) []
    hfuel trivial
  rw [List.append_nil] at hparse
  rw [hparse]
  simp [skipWs]

/-!
UTF-8, connecting the character-level JSON text to the byte-level file
contents (Rust String and Vec of u8).  Bytes are naturals below 256.
-/

/-- UTF-8 bytes of one unicode scalar. -/
def utf8EncodeChar (c : Char) : List Nat :=
  if c.toNat < 128 then [c.toNat]
  else if c.toNat < 2048 then [192 + c.toNat / 64, 128 + c.toNat % 64]
  else if c.toNat < 65536 then
    [224 + c.toNat / 4096, 128 + c.toNat / 64 % 64, 128 + c.toNat % 64]
  else
    [240 + c.toNat / 262144, 128 + c.toNat / 4096 % 64, 128 + c.toNat / 64 % 64,
     128 + c.toNat % 64]

/-- UTF-8 bytes of a string. -/
def utf8Encode : List Char → List Nat
  | [] => []
  | c :: rest => utf8EncodeChar c ++ utf8Encode rest

/-- A UTF-8 continuation byte. -/
def contB (b : Nat) : Prop := 128 ≤ b ∧ b < 192

instance (b : Nat) : Decidable (contB b) := by
  unfold contB
  infer_instance

/-- Worker for utf8Decode; one unit of fuel is spent per decoded scalar
(the fuel keeps the recursion structural so the kernel can evaluate it).
Truncated or malformed sequences, overlong encodings, surrogates and
out-of-range scalars are rejected, as Rust's String::from_utf8 does. -/
def utf8DecodeAux : Nat → List Nat → Option (List Char)
  | 0, _ => none
  | _ + 1, [] => some []
  | fuel + 1, b :: rest =>
      if b < 128 then (utf8DecodeAux fuel rest).map (fun cs => Char.ofNat b :: cs)
      else if b < 194 then none
      else if b < 224 then
        match rest with
        | [] => none
        | b1 :: r =>
            if contB b1 then
              (utf8DecodeAux fuel r).map
                (fun cs => Char.ofNat ((b - 192) * 64 + (b1 - 128)) :: cs)
            else none
      else if b < 240 then
        match rest with
        | b1 :: b2 :: r =>
            if contB b1 ∧ contB b2 then
              if 2048 ≤ (b - 224) * 4096 + (b1 - 128) * 64 + (b2 - 128)
                  ∧ ((b - 224) * 4096 + (b1 - 128) * 64 + (b2 - 128) < 55296
                      ∨ 57344 ≤ (b - 224) * 4096 + (b1 - 128) * 64 + (b2 - 128)) then
                (utf8DecodeAux fuel r).map
                  (fun cs => Char.ofNat ((b - 224) * 4096 + (b1 - 128) * 64 + (b2 - 128)) :: cs)
              else none
            else none
        | _ => none
      else if b < 245 then
        match rest with
        | b1 :: b2 :: b3 :: r =>
            if contB b1 ∧ contB b2 ∧ contB b3 then
              if 65536 ≤ (b - 240) * 262144 + (b1 - 128) * 4096 + (b2 - 128) * 64 + (b3 - 128)
                  ∧ (b - 240) * 262144 + (b1 - 128) * 4096 + (b2 - 128) * 64 + (b3 - 128)
                      < 1114112 then
                (utf8DecodeAux fuel r).map
                  (fun cs => Char.ofNat
                    ((b - 240) * 262144 + (b1 - 128) * 4096 + (b2 - 128) * 64 + (b3 - 128))
                    :: cs)
              else none
            else none
        | _ => none
      else none

/-- Decode a UTF-8 byte sequence to a string. -/
def utf8Decode (bs : List Nat) : Option (List Char) :=
  utf8DecodeAux (bs.length + 1) bs

theorem utf8DecodeAux_succ (fuel : Nat) (b : Nat) (rest : List Nat) :
    utf8DecodeAux (fuel + 1) (b :: rest) =
      (if b < 128 then (utf8DecodeAux fuel rest).map (fun cs => Char.ofNat b :: cs)
      else if b < 194 then none
      else if b < 224 then
        match rest with
        | [] => none
        | b1 :: r =>
            if contB b1 then
              (utf8DecodeAux fuel r).map
                (fun cs => Char.ofNat ((b - 192) * 64 + (b1 - 128)) :: cs)
            else none
      else if b < 240 then
        match rest with
        | b1 :: b2 :: r =>
            if contB b1 ∧ contB b2 then
              if 2048 ≤ (b - 224) * 4096 + (b1 - 128) * 64 + (b2 - 128)
                  ∧ ((b - 224) * 4096 + (b1 - 128) * 64 + (b2 - 128) < 55296
                      ∨ 57344 ≤ (b - 224) * 4096 + (b1 - 128) * 64 + (b2 - 128)) then
                (utf8DecodeAux fuel r).map
                  (fun cs => Char.ofNat ((b - 224) * 4096 + (b1 - 128) * 64 + (b2 - 128)) :: cs)
              else none
            else none
        | _ => none
      else if b < 245 then
        match rest with
        | b1 :: b2 :: b3 :: r =>
            if contB b1 ∧ contB b2 ∧ contB b3 then
              if 65536 ≤ (b - 240) * 262144 + (b1 - 128) * 4096 + (b2 - 128) * 64 + (b3 - 128)
                  ∧ (b - 240) * 262144 + (b1 - 128) * 4096 + (b2 - 128) * 64 + (b3 - 128)
                      < 1114112 then
                (utf8DecodeAux fuel r).map
                  (fun cs => Char.ofNat
                    ((b - 240) * 262144 + (b1 - 128) * 4096 + (b2 - 128) * 64 + (b3 - 128))
                    :: cs)
              else none
            else none
        | _ => none
      else none) := rfl

theorem char_valid_range (c : Char) :
    c.toNat < 55296 ∨ (57344 ≤ c.toNat ∧ c.toNat < 1114112) := by
  show c.val.toNat < 55296 ∨ (57344 ≤ c.val.toNat ∧ c.val.toNat < 1114112)
  have h := c.valid
  rcases h with h | h
  · left
    exact_mod_cast h
  · right
    omega

theorem utf8DecodeAux_encodeChar (c : Char) (fuel : Nat) (rest : List Nat) :
    utf8DecodeAux (fuel + 1) (utf8EncodeChar c ++ rest) =
      (utf8DecodeAux fuel rest).map (fun cs => c :: cs) := by
  have hrange := char_valid_range c
  by_cases h1 : c.toNat < 128
  · rw [utf8EncodeChar, if_pos h1]
    simp only [List.cons_append, List.nil_append]
    rw [utf8DecodeAux_succ, if_pos h1, charOfNat_toNat]
  · by_cases h2 : c.toNat < 2048
    · rw [utf8EncodeChar, if_neg h1, if_pos h2]
      simp only [List.cons_append, List.nil_append]
      rw [utf8DecodeAux_succ]
      rw [if_neg (by omega), if_neg (by omega), if_pos (by omega)]
      simp only []
      rw [if_pos (show contB (128 + c.toNat % 64) from ⟨by omega, by omega⟩)]
      have hn : (192 + c.toNat / 64 - 192) * 64 + (128 + c.toNat % 64 - 128) = c.toNat := by
        omega
      rw [hn, charOfNat_toNat]
    · by_cases h3 : c.toNat < 65536
      · rw [utf8EncodeChar, if_neg h1, if_neg h2, if_pos h3]
        simp only [List.cons_append, List.nil_append]
        rw [utf8DecodeAux_succ]
        rw [if_neg (by omega), if_neg (by omega), if_neg (by omega), if_pos (by omega)]
        simp only []
        rw [if_pos (show contB (128 + c.toNat / 64 % 64) ∧ contB (128 + c.toNat % 64) from
          ⟨⟨by omega, by omega⟩, ⟨by omega, by omega⟩⟩)]
        have hn : (224 + c.toNat / 4096 - 224) * 4096 + (128 + c.toNat / 64 % 64 - 128) * 64
            + (128 + c.toNat % 64 - 128) = c.toNat := by
          omega
        rw [hn]
        rw [if_pos (by constructor <;> omega)]
        rw [charOfNat_toNat]
      · rw [utf8EncodeChar, if_neg h1, if_neg h2, if_neg h3]
        simp only [List.cons_append, List.nil_append]
        rw [utf8DecodeAux_succ]
        rw [if_neg (by omega), if_neg (by omega), if_neg (by omega), if_neg (by omega),
          if_pos (by omega)]
        simp only []
        rw [if_pos (show contB (128 + c.toNat / 4096 % 64) ∧ contB (128 + c.toNat / 64 % 64)
            ∧ contB (128 + c.toNat % 64) from
          ⟨⟨by omega, by omega⟩, ⟨by omega, by omega⟩, ⟨by omega, by omega⟩⟩)]
        have hn : (240 + c.toNat / 262144 - 240) * 262144 + (128 + c.toNat / 4096 % 64 - 128)
            * 4096 + (128 + c.toNat / 64 % 64 - 128) * 64 + (128 + c.toNat % 64 - 128)
            = c.toNat := by
          omega
        rw [hn]
        rw [if_pos (by constructor <;> omega)]
        rw [charOfNat_toNat]

theorem utf8DecodeAux_encode (s : List Char) :
    ∀ (fuel : Nat) (rest : List Nat),
      utf8DecodeAux (s.length + fuel) (utf8Encode s ++ rest) =
        (utf8DecodeAux fuel rest).map (fun cs => s ++ cs) := by
  induction s with
  | nil =>
      intro fuel rest
      simp [utf8Encode]
  | cons c s ih =>
      intro fuel rest
      rw [show utf8Encode (c :: s) = utf8EncodeChar c ++ utf8Encode s from rfl]
      simp only [List.append_assoc, List.length_cons]
      rw [show s.length + 1 + fuel = (s.length + fuel) + 1 by omega]
      rw [utf8DecodeAux_encodeChar c (s.length + fuel) (utf8Encode s ++ rest)]
      rw [ih fuel rest]
      cases h : utf8DecodeAux fuel rest with
      | none => rfl
      | some cs => rfl

theorem utf8Encode_length_ge (s : List Char) : s.length ≤ (utf8Encode s).length := by
  induction s with
  | nil => simp [utf8Encode]
  | cons c s ih =>
      have hc : 1 ≤ (utf8EncodeChar c).length := by
        rw [utf8EncodeChar]
        split
        · simp
        · split
          · simp
          · split
            · simp
            · simp
      simp only [utf8Encode, List.length_append, List.length_cons]
      omega

theorem utf8Decode_encode (s : List Char) : utf8Decode (utf8Encode s) = some s := by
  rw [utf8Decode]
  have hge := utf8Encode_length_ge s
  obtain ⟨k, hk⟩ : ∃ k, (utf8Encode s).length + 1 = s.length + (k + 1) :=
    ⟨(utf8Encode s).length - s.length, by omega⟩
  rw [hk]
  rw [show utf8Encode s = utf8Encode s ++ [] from by simp]
  rw [utf8DecodeAux_encode s (k + 1) []]
  rw [show utf8DecodeAux (k + 1) ([] : List Nat) = some [] from rfl]
  simp

/-!
The bincode encoding of a Rust String, as the store_file.rs and lib.rs
default codec uses it: an 8-byte little-endian u64 byte length followed
by the UTF-8 bytes of the string.
-/

/-- Little-endian bytes of a number, fixed width. -/
def leBytes : Nat → Nat → List Nat
  | 0, _ => []
  | k + 1, n => (n % 256) :: leBytes k (n / 256)

/-- Value of a little-endian byte list. -/
def leVal : List Nat → Nat
  | [] => 0
  | b :: rest => b + 256 * leVal rest

theorem leBytes_length (k n : Nat) : (leBytes k n).length = k := by
  induction k generalizing n with
  | zero => simp [leBytes]
  | succ k ih => simp [leBytes, ih]

theorem leVal_leBytes (k n : Nat) (h : n < 256 ^ k) : leVal (leBytes k n) = n := by
  induction k generalizing n with
  | zero =>
      simp only [pow_zero] at h
      interval_cases n
      simp [leBytes, leVal]
  | succ k ih =>
      rw [leBytes, leVal]
      rw [ih (n / 256) (by
        rw [pow_succ] at h
        omega)]
      omega

/-!
The two default codecs of the repository.

default_serialize and default_deserialize in src/store.rs:
serde_json::to_vec of the cache and serde_json::from_slice of the file
bytes.

default_serialize and default_deserialize in src/store_file.rs (also the
inline load/save in src/lib.rs):
bincode::serialize of the serde_json string of the cache, i.e. the JSON
text with an 8-byte little-endian length prefix, and the composition of
bincode::deserialize into a String followed by serde_json::from_str.
-/

namespace StoreRs

/-- src/store.rs default_serialize: serde_json::to_vec(&cache). -/
def default_serialize (m : JMap) : Except StoreErr (List Nat) :=
  Except.ok (utf8Encode (encVal (JVal.obj m)))

/-- src/store.rs default_deserialize: serde_json::from_slice(bytes). -/
def default_deserialize (bytes : List Nat) : Except StoreErr JMap :=
  match utf8Decode bytes with
  | none => Except.error StoreErr.deserErr
  | some text => jsonParseText text

end StoreRs

namespace StoreSF

/-- src/store_file.rs default_serialize:
bincode::serialize(&serde_json::to_string(&cache)). -/
def default_serialize (m : JMap) : Except StoreErr (List Nat) :=
  let b := utf8Encode (encVal (JVal.obj m))
  Except.ok (leBytes 8 b.length ++ b)

/-- src/store_file.rs default_deserialize:
serde_json::from_str(&bincode::deserialize::<String>(bytes)). -/
def default_deserialize (bytes : List Nat) : Except StoreErr JMap :=
  if bytes.length < 8 then Except.error StoreErr.deserErr
  else
    let n := leVal (bytes.take 8)
    let rest := bytes.drop 8
    if rest.length < n then Except.error StoreErr.deserErr
    else
      match utf8Decode (rest.take n) with
      | none => Except.error StoreErr.deserErr
      | some text => jsonParseText text

end StoreSF

theorem listToMap_nodup (m : JMap) (hm : nodupKeys m) : listToMap m = m := by
  rw [listToMap]
  exact alistExtend_nil_of_nodup m hm

/-- Round trip of the plain JSON codec of src/store.rs. -/
theorem storeRs_codec_roundtrip (m : JMap) (hm : nodupKeys m) :
    ∀ bytes, StoreRs.default_serialize m = Except.ok bytes →
      StoreRs.default_deserialize bytes = Except.ok m := by
  intro bytes hser
  rw [StoreRs.default_serialize] at hser
  cases hser
  rw [StoreRs.default_deserialize, utf8Decode_encode]
  simp only []
  rw [jsonParseText_encVal, listToMap_nodup m hm]

/-- Round trip of the length-prefixed binary codec of src/store_file.rs,
for texts whose byte length fits the 64-bit prefix. -/
theorem storeSF_codec_roundtrip (m : JMap) (hm : nodupKeys m)
    (hlen : (utf8Encode (encVal (JVal.obj m))).length < 256 ^ 8) :
    ∀ bytes, StoreSF.default_serialize m = Except.ok bytes →
      StoreSF.default_deserialize bytes = Except.ok m := by
  intro bytes hser
  rw [StoreSF.default_serialize] at hser
  cases hser
  rw [StoreSF.default_deserialize]
  rw [if_neg (by
    simp only [List.length_append, leBytes_length]
    omega)]
  rw [List.take_left' (leBytes_length 8 _), List.drop_left' (leBytes_length 8 _)]
  rw [leVal_leBytes 8 _ hlen]
  rw [if_neg (by omega)]
  rw [List.take_of_length_le (le_refl _), utf8Decode_encode]
  simp only []
  rw [jsonParseText_encVal, listToMap_nodup m hm]

/-!
The store engine.

Three implementations coexist in the repository and are embedded
separately: StoreRs (src/store.rs), StoreSF (src/store_file.rs) and
StoreFile with its registry (src/lib.rs).

Externals are made explicit: the file system enters load as the result
of the read and leaves save as the bytes written; event emission is an
oracle, a boolean per successive emit call of the operation saying
whether tauri's emit succeeds, and each operation also returns the list
of events actually emitted.
-/

/-- The change-event payload emitted on the store://change channel. -/
structure ChangePayload where
  path : List Char
  key : Key
  value : JVal
deriving DecidableEq

/-- The Store of src/store.rs. -/
structure StoreRs where
  path : List Char
  defaults : Option JMap
  cache : JMap
  serialize : JMap → Except StoreErr (List Nat)
  deserialize : List Nat → Except StoreErr JMap

/-- Emit one event per key (value null), stopping at the first failed
emission as the question-mark operator in the clear loop of
src/store.rs does. -/
def emitSeq (path : List Char) (e : Nat → Bool) :
    List Key → Nat → Except StoreErr Unit × List ChangePayload
  | [], _ => (Except.ok (), [])
  | k :: rest, i =>
      if e i then
        let r := emitSeq path e rest (i + 1)
        (r.1, ChangePayload.mk path k JVal.null :: r.2)
      else (Except.error StoreErr.emitErr, [])

/-- The events reset attempts: one per cache entry whose value differs
from its default, carrying the default value or null; failed emissions
are ignored (the code discards the emit result), so they drop the event
without aborting. -/
def resetEvents (path : List Char) (defaults : JMap) (e : Nat → Bool) :
    JMap → Nat → List ChangePayload
  | [], _ => []
  | (k, v) :: rest, i =>
      if alistGet defaults k ≠ some v then
        if e i then
          ChangePayload.mk path k ((alistGet defaults k).getD JVal.null)
            :: resetEvents path defaults e rest (i + 1)
        else resetEvents path defaults e rest (i + 1)
      else resetEvents path defaults e rest i

namespace StoreRs

/-- Store::get of src/store.rs. -/
def get (st : StoreRs) (key : Key) : Option JVal := alistGet st.cache key

/-- Store::has of src/store.rs. -/
def has (st : StoreRs) (key : Key) : Bool := (alistGet st.cache key).isSome

/-- Store::len of src/store.rs. -/
def len (st : StoreRs) : Nat := st.cache.length

/-- Store::insert of src/store.rs: insert into the cache, then emit one
change event carrying the new value; the question mark on emit turns an
emission failure into an error after the cache was already updated. -/
def insert (st : StoreRs) (key : Key) (value : JVal) (emitOk : Bool) :
    Except StoreErr Unit × StoreRs × List ChangePayload :=
  let st' := { st with cache := alistInsert st.cache key value }
  if emitOk then (Except.ok (), st', [ChangePayload.mk st.path key value])
  else (Except.error StoreErr.emitErr, st', [])

/-- Store::delete of src/store.rs: remove from the cache, then emit a
null-valued change event only when the key was present. -/
def delete (st : StoreRs) (key : Key) (emitOk : Bool) :
    Except StoreErr Bool × StoreRs × List ChangePayload :=
  let flag := (alistGet st.cache key).isSome
  let st' := { st with cache := alistRemove st.cache key }
  if flag then
    if emitOk then (Except.ok true, st', [ChangePayload.mk st.path key JVal.null])
    else (Except.error StoreErr.emitErr, st', [])
  else (Except.ok false, st', [])

/-- Store::clear of src/store.rs: snapshot the keys, clear the cache,
then emit one null-valued event per former key. -/
def clear (st : StoreRs) (e : Nat → Bool) :
    Except StoreErr Unit × StoreRs × List ChangePayload :=
  let keys := keysOf st.cache
  let r := emitSeq st.path e keys 0
  (r.1, { st with cache := [] }, r.2)

/-- Store::reset of src/store.rs: with defaults, emit an event for every
cache entry differing from its default (emission results discarded) and
restore the cache to a copy of the defaults; without defaults, clear. -/
def reset (st : StoreRs) (e : Nat → Bool) :
    Except StoreErr Unit × StoreRs × List ChangePayload :=
  match st.defaults with
  | some defaults =>
      (Except.ok (), { st with cache := defaults },
        resetEvents st.path defaults e st.cache 0)
  | none => clear st e

/-- Store::load of src/store.rs: read the file, decode, and extend the
cache with the decoded mapping (merge, not replace). -/
def load (st : StoreRs) (readRes : Except StoreErr (List Nat)) :
    Except StoreErr Unit × StoreRs :=
  match readRes with
  | Except.error err => (Except.error err, st)
  | Except.ok bytes =>
      match st.deserialize bytes with
      | Except.error err => (Except.error err, st)
      | Except.ok d => (Except.ok (), { st with cache := alistExtend st.cache d })

/-- Store::save of src/store.rs: encode the cache and write the bytes
to the store file (the written bytes are returned). -/
def save (st : StoreRs) : Except StoreErr (List Nat) :=
  st.serialize st.cache

end StoreRs

/-- The Store of src/store_file.rs. -/
structure StoreSF where
  path : List Char
  defaults : Option JMap
  cache : JMap
  serialize : JMap → Except StoreErr (List Nat)
  deserialize : List Nat → Except StoreErr JMap

namespace StoreSF

/-- Store::load of src/store_file.rs: read the file, decode, and assign
the decoded mapping to the cache (replace, not merge). -/
def load (st : StoreSF) (readRes : Except StoreErr (List Nat)) :
    Except StoreErr Unit × StoreSF :=
  match readRes with
  | Except.error err => (Except.error err, st)
  | Except.ok bytes =>
      match st.deserialize bytes with
      | Except.error err => (Except.error err, st)
      | Except.ok d => (Except.ok (), { st with cache := d })

/-- Store::save of src/store_file.rs. -/
def save (st : StoreSF) : Except StoreErr (List Nat) :=
  st.serialize st.cache

end StoreSF

/-- The StoreFile of src/lib.rs. -/
structure StoreFile where
  path : List Char
  defaults : Option JMap
  cache : JMap

namespace StoreFile

/-- StoreFile::new. -/
def new (path : List Char) : StoreFile := StoreFile.mk path none []

/-- StoreFile::with_defaults. -/
def with_defaults (path : List Char) (defaults : JMap) : StoreFile :=
  StoreFile.mk path (some defaults) defaults

/-- StoreFile::load of src/lib.rs: read the file, decode with the
bincode-wrapped JSON codec, and replace the cache on success; any
failure is swallowed and leaves the store unchanged. -/
def load (st : StoreFile) (readRes : Except StoreErr (List Nat)) : StoreFile :=
  let state : Except StoreErr JMap :=
    match readRes with
    | Except.error err => Except.error err
    | Except.ok bytes => StoreSF.default_deserialize bytes
  match state with
  | Except.ok d => { st with cache := d }
  | Except.error _ => st

/-- StoreFile::set. -/
def set (st : StoreFile) (key : Key) (value : JVal) : StoreFile :=
  { st with cache := alistInsert st.cache key value }

/-- StoreFile::get. -/
def get (st : StoreFile) (key : Key) : Option JVal := alistGet st.cache key

/-- StoreFile::remove: the removed value and the new state. -/
def remove (st : StoreFile) (key : Key) : Option JVal × StoreFile :=
  (alistGet st.cache key, { st with cache := alistRemove st.cache key })

end StoreFile

/-- with_store of src/lib.rs: resolve the store for the path in the
registry; when absent, construct a fresh store, attempt its lazy first
load (whose failure is swallowed inside StoreFile.load) and insert it;
then apply the operation.  The updated registry is returned alongside
the operation's result. -/
def with_store {T : Type} (registry : List (Key × StoreFile)) (path : Key)
    (readRes : Except StoreErr (List Nat)) (f : StoreFile → T × StoreFile) :
    T × List (Key × StoreFile) :=
  match alistGet registry path with
  | some st =>
      let r := f st
      (r.1, alistInsert registry path r.2)
  | none =>
      let st := StoreFile.load (StoreFile.new path) readRes
      let r := f st
      (r.1, alistInsert registry path r.2)

theorem emitSeq_all_true (path : List Char) :
    ∀ (keys : List Key) (i : Nat),
      emitSeq path (fun _ => true) keys i =
        (Except.ok (), keys.map (fun k => ChangePayload.mk path k JVal.null)) := by
  intro keys
  induction keys with
  | nil => intro i; simp [emitSeq]
  | cons k rest ih =>
      intro i
      simp [emitSeq, ih (i + 1)]

theorem emitSeq_all_false (path : List Char) (k : Key) (rest : List Key) (i : Nat) :
    emitSeq path (fun _ => false) (k :: rest) i = (Except.error StoreErr.emitErr, []) := by
  simp [emitSeq]

theorem keysOf_length {α : Type} (m : List (Key × α)) : (keysOf m).length = m.length := by
  induction m with
  | nil => simp [keysOf]
  | cons e rest ih => simp [keysOf, ih]

theorem alistRemove_of_not_mem {α : Type} (m : List (Key × α)) (k : Key)
    (h : k ∉ keysOf m) : alistRemove m k = m := by
  induction m with
  | nil => simp [alistRemove]
  | cons e rest ih =>
      obtain ⟨k0, v0⟩ := e
      simp only [keysOf, List.mem_cons] at h
      push_neg at h
      have hne : k0 ≠ k := fun hk => h.1 hk.symm
      simp [alistRemove, hne, ih h.2]

theorem alistGet_mem_keys {α : Type} (m : List (Key × α)) (k : Key)
    (h : alistGet m k = none) : k ∉ keysOf m := by
  induction m with
  | nil => simp [keysOf]
  | cons e rest ih =>
      obtain ⟨k0, v0⟩ := e
      simp only [alistGet] at h
      by_cases h0 : k0 = k
      · simp [h0] at h
      · simp only [h0, if_false] at h
        simp only [keysOf, List.mem_cons]
        push_neg
        exact ⟨fun hk => h0 hk.symm, ih h⟩

theorem resetEvents_all_true (path : List Char) (defaults : JMap) :
    ∀ (cache : JMap) (i : Nat),
      resetEvents path defaults (fun _ => true) cache i =
        (cache.filter (fun kv => decide (alistGet defaults kv.1 ≠ some kv.2))).map
          (fun kv => ChangePayload.mk path kv.1 ((alistGet defaults kv.1).getD JVal.null)) := by
  intro cache
  induction cache with
  | nil => intro i; simp [resetEvents]
  | cons kv rest ih =>
      intro i
      obtain ⟨k, v⟩ := kv
      by_cases hd : alistGet defaults k ≠ some v
      · rw [resetEvents, if_pos hd, if_pos rfl]
        rw [ih (i + 1)]
        simp [List.filter_cons, hd]
      · rw [resetEvents, if_neg hd]
        rw [ih i]
        push_neg at hd
        simp [List.filter_cons, hd]

/-- C4: for every key K and value V, set(K, V) emits exactly one change
event carrying the new value V — with no value-equality short-circuit,
since the statement holds for every prior cache state, including one
already mapping K to V — and afterwards the cache maps K to V
(Store::insert in src/store.rs). -/
theorem c4_set_always_emits (st : StoreRs) (key : Key) (value : JVal) :
    (st.insert key value true).1 = Except.ok () ∧
    (st.insert key value true).2.2 = [ChangePayload.mk st.path key value] ∧
    alistGet (st.insert key value true).2.1.cache key = some value := by
  refine ⟨rfl, rfl, ?_⟩
  simp [StoreRs.insert, alistGet_insert_self]

/-- C5: whenever Store::load of src/store.rs returns a failure — the
read failed or the codec rejected the bytes — the store, in particular
its in-memory cache, is exactly what it was before the call. -/
theorem c5_load_error_preserves_cache (st : StoreRs)
    (readRes : Except StoreErr (List Nat)) (err : StoreErr)
    (h : (st.load readRes).1 = Except.error err) : (st.load readRes).2 = st := by
  cases readRes with
  | error e => rfl
  | ok bytes =>
      rw [StoreRs.load] at h ⊢
      cases hd : st.deserialize bytes with
      | error e => simp [hd]
      | ok d =>
          rw [hd] at h
          simp at h

theorem c5_witness :
    ((StoreRs.mk ['p'] none [(['a'], JVal.num 1)]
        StoreRs.default_serialize StoreRs.default_deserialize).load
          (Except.error StoreErr.ioErr)).2
      = StoreRs.mk ['p'] none [(['a'], JVal.num 1)]
          StoreRs.default_serialize StoreRs.default_deserialize :=
  c5_load_error_preserves_cache _ _ StoreErr.ioErr rfl

/-- C7: delete(K) removes K from the cache and returns true exactly when
K was present; it emits exactly one null-valued change event when K was
present and no event at all when K was absent (Store::delete in
src/store.rs). -/
theorem c7_delete_semantics (st : StoreRs) (key : Key) :
    (alistGet st.cache key = none →
      (st.delete key true).1 = Except.ok false ∧
      (st.delete key true).2.2 = [] ∧
      (st.delete key true).2.1 = st) ∧
    (∀ v, alistGet st.cache key = some v → nodupKeys st.cache →
      (st.delete key true).1 = Except.ok true ∧
      (st.delete key true).2.2 = [ChangePayload.mk st.path key JVal.null] ∧
      alistGet (st.delete key true).2.1.cache key = none) := by
  constructor
  · intro h
    have hrm : alistRemove st.cache key = st.cache :=
      alistRemove_of_not_mem _ _ (alistGet_mem_keys _ _ h)
    refine ⟨?_, ?_, ?_⟩ <;> simp [StoreRs.delete, h, hrm]
  · intro v h hnodup
    refine ⟨?_, ?_, ?_⟩ <;> simp [StoreRs.delete, h, alistGet_remove_self st.cache key hnodup]

theorem c7_witness :
    (((StoreRs.mk ['p'] none [(['a'], JVal.num 1)]
          StoreRs.default_serialize StoreRs.default_deserialize).delete ['a'] true).1
        = Except.ok true ∧
      ((StoreRs.mk ['p'] none [(['a'], JVal.num 1)]
          StoreRs.default_serialize StoreRs.default_deserialize).delete ['a'] true).2.2
        = [ChangePayload.mk ['p'] ['a'] JVal.null] ∧
      alistGet (((StoreRs.mk ['p'] none [(['a'], JVal.num 1)]
          StoreRs.default_serialize StoreRs.default_deserialize).delete ['a'] true).2.1).cache
          ['a'] = none) ∧
    (((StoreRs.mk ['p'] none []
          StoreRs.default_serialize StoreRs.default_deserialize).delete ['a'] true).1
        = Except.ok false ∧
      ((StoreRs.mk ['p'] none []
          StoreRs.default_serialize StoreRs.default_deserialize).delete ['a'] true).2.2
        = []) := by
  constructor
  · exact (c7_delete_semantics _ ['a']).2 (JVal.num 1) (by decide) (by decide)
  · exact ⟨((c7_delete_semantics _ ['a']).1 (by decide)).1,
      ((c7_delete_semantics _ ['a']).1 (by decide)).2.1⟩

/-- C8: clear() on a store whose cache holds exactly N keys emits
exactly N change events, one per previously present key, each carrying
null, and leaves the cache empty (Store::clear in src/store.rs). -/
theorem c8_clear_emits_per_key (st : StoreRs) :
    (st.clear (fun _ => true)).1 = Except.ok () ∧
    (st.clear (fun _ => true)).2.1.cache = [] ∧
    (st.clear (fun _ => true)).2.2
      = (keysOf st.cache).map (fun k => ChangePayload.mk st.path k JVal.null) ∧
    (st.clear (fun _ => true)).2.2.length = st.len := by
  refine ⟨?_, rfl, ?_, ?_⟩
  · simp [StoreRs.clear, emitSeq_all_true]
  · simp [StoreRs.clear, emitSeq_all_true]
  · simp [StoreRs.clear, emitSeq_all_true, keysOf_length, StoreRs.len]

/-- C10: each mutating operation updates the cache before attempting any
emission, so when emission fails the operation reports an error while
the cache already holds the post-mutation state: insert has inserted,
delete has removed, clear has emptied (src/store.rs). -/
theorem c10_mutation_precedes_emission (st : StoreRs) (key : Key) (value : JVal) :
    ((st.insert key value false).1 = Except.error StoreErr.emitErr ∧
      (st.insert key value false).2.1.cache = alistInsert st.cache key value) ∧
    (∀ v, alistGet st.cache key = some v →
      (st.delete key false).1 = Except.error StoreErr.emitErr ∧
      (st.delete key false).2.1.cache = alistRemove st.cache key) ∧
    (st.cache ≠ [] →
      (st.clear (fun _ => false)).1 = Except.error StoreErr.emitErr ∧
      (st.clear (fun _ => false)).2.1.cache = []) := by
  refine ⟨⟨rfl, rfl⟩, ?_, ?_⟩
  · intro v h
    constructor <;> simp [StoreRs.delete, h]
  · intro h
    cases hc : st.cache with
    | nil => exact absurd hc h
    | cons kv rest =>
        constructor
        · simp [StoreRs.clear, hc, keysOf, emitSeq_all_false]
        · rfl

theorem c10_witness :
    (((StoreRs.mk ['p'] none [(['a'], JVal.num 1)]
          StoreRs.default_serialize StoreRs.default_deserialize).delete ['a'] false).1
        = Except.error StoreErr.emitErr ∧
      ((StoreRs.mk ['p'] none [(['a'], JVal.num 1)]
          StoreRs.default_serialize StoreRs.default_deserialize).delete ['a'] false).2.1.cache
        = alistRemove [(['a'], JVal.num 1)] ['a']) ∧
    (((StoreRs.mk ['p'] none [(['a'], JVal.num 1)]
          StoreRs.default_serialize StoreRs.default_deserialize).clear (fun _ => false)).1
        = Except.error StoreErr.emitErr ∧
      ((StoreRs.mk ['p'] none [(['a'], JVal.num 1)]
          StoreRs.default_serialize StoreRs.default_deserialize).clear
            (fun _ => false)).2.1.cache = []) := by
  constructor
  · exact (c10_mutation_precedes_emission _ ['a'] JVal.null).2.1 (JVal.num 1) (by decide)
  · exact (c10_mutation_precedes_emission _ ['a'] JVal.null).2.2 (by decide)

/-- The store of the C1 counterexample: the src/store_file.rs Store with
one in-memory key and the default length-prefixed codec. -/
def c1Store : StoreSF :=
  StoreSF.mk ['p'] none [(['a'], JVal.num 1)]
    StoreSF.default_serialize StoreSF.default_deserialize

/-- A backing file for the C1 counterexample: the default encoding of
the one-key mapping b maps-to 2. -/
def c1Bytes : List Nat :=
  match StoreSF.default_serialize [(['b'], JVal.num 2)] with
  | Except.ok bs => bs
  | Except.error _ => []

/-- C1 fails on the Store of src/store_file.rs: the backing bytes decode
to the mapping b maps-to 2, the cache held a maps-to 1, the load
succeeds, and afterwards the in-memory key a is gone — the cache was
replaced wholesale, not merged additively. -/
theorem c1_counterexample :
    c1Store.deserialize c1Bytes = Except.ok [(['b'], JVal.num 2)] ∧
    alistGet c1Store.cache ['a'] = some (JVal.num 1) ∧
    (StoreSF.load c1Store (Except.ok c1Bytes)).1 = Except.ok () ∧
    alistGet (StoreSF.load c1Store (Except.ok c1Bytes)).2.cache ['a'] = none := by
  refine ⟨by decide, by decide, ?_, ?_⟩
  · rw [StoreSF.load]
    rw [show c1Store.deserialize c1Bytes = Except.ok [(['b'], JVal.num 2)] from by decide]
  · rw [StoreSF.load]
    rw [show c1Store.deserialize c1Bytes = Except.ok [(['b'], JVal.num 2)] from by decide]
    decide

/-- C1 amended: Store::load of src/store.rs merges the decoded mapping
into the cache additively — decoded keys take their decoded values,
keys present only in memory keep theirs — while Store::load of
src/store_file.rs (and StoreFile::load of src/lib.rs) replaces the
cache wholesale with the decoded mapping on success. -/
theorem c1_load_merge_semantics :
    (∀ (st : StoreRs) (bytes : List Nat) (d : JMap),
        st.deserialize bytes = Except.ok d → nodupKeys d →
        (st.load (Except.ok bytes)).1 = Except.ok () ∧
        (∀ k v, alistGet d k = some v →
            alistGet (st.load (Except.ok bytes)).2.cache k = some v) ∧
        (∀ k, alistGet d k = none →
            alistGet (st.load (Except.ok bytes)).2.cache k = alistGet st.cache k)) ∧
    (∀ (st : StoreSF) (bytes : List Nat) (d : JMap),
        st.deserialize bytes = Except.ok d →
        (StoreSF.load st (Except.ok bytes)).1 = Except.ok () ∧
        (StoreSF.load st (Except.ok bytes)).2.cache = d) ∧
    (∀ (st : StoreFile) (bytes : List Nat) (d : JMap),
        StoreSF.default_deserialize bytes = Except.ok d →
        (StoreFile.load st (Except.ok bytes)).cache = d) := by
  refine ⟨?_, ?_, ?_⟩
  · intro st bytes d hd hnodup
    rw [StoreRs.load, hd]
    refine ⟨rfl, ?_, ?_⟩
    · intro k v hk
      simp only []
      rw [alistGet_extend d hnodup st.cache k, hk]
    · intro k hk
      simp only []
      rw [alistGet_extend d hnodup st.cache k, hk]
  · intro st bytes d hd
    rw [StoreSF.load, hd]
    exact ⟨rfl, rfl⟩
  · intro st bytes d hd
    rw [StoreFile.load]
    simp only [hd]

theorem c1_witness :
    ((StoreRs.mk ['p'] none [(['a'], JVal.num 1)]
          StoreRs.default_serialize StoreRs.default_deserialize).load
        (Except.ok (utf8Encode (encVal (JVal.obj [(['b'], JVal.num 2)]))))).1
      = Except.ok () ∧
    alistGet ((StoreRs.mk ['p'] none [(['a'], JVal.num 1)]
          StoreRs.default_serialize StoreRs.default_deserialize).load
        (Except.ok (utf8Encode (encVal (JVal.obj [(['b'], JVal.num 2)]))))).2.cache ['b']
      = some (JVal.num 2) ∧
    alistGet ((StoreRs.mk ['p'] none [(['a'], JVal.num 1)]
          StoreRs.default_serialize StoreRs.default_deserialize).load
        (Except.ok (utf8Encode (encVal (JVal.obj [(['b'], JVal.num 2)]))))).2.cache ['a']
      = some (JVal.num 1) ∧
    (StoreFile.load (StoreFile.mk ['p'] none [(['a'], JVal.num 1)])
        (Except.ok c1Bytes)).cache = [(['b'], JVal.num 2)] := by
  have h := c1_load_merge_semantics.1
    (StoreRs.mk ['p'] none [(['a'], JVal.num 1)]
      StoreRs.default_serialize StoreRs.default_deserialize)
    (utf8Encode (encVal (JVal.obj [(['b'], JVal.num 2)])))
    [(['b'], JVal.num 2)]
    (by decide) (by decide)
  have h3 := c1_load_merge_semantics.2.2
    (StoreFile.mk ['p'] none [(['a'], JVal.num 1)]) c1Bytes
    [(['b'], JVal.num 2)] (by decide)
  exact ⟨h.1, h.2.1 ['b'] (JVal.num 2) (by decide), h.2.2 ['a'] (by decide), h3⟩

/-- The store of the C2 counterexample: defaults hold a maps-to 1, and
the key a has since been deleted from the cache. -/
def c2Store : StoreRs :=
  StoreRs.mk ['p'] (some [(['a'], JVal.num 1)]) []
    StoreRs.default_serialize StoreRs.default_deserialize

/-- C2 fails on the code: key a exists in the defaults, differs from the
cache (it was deleted), and reset restores it — yet reset emits no event
at all, because the loop in Store::reset of src/store.rs walks only the
cache's own entries. -/
theorem c2_counterexample :
    c2Store.defaults = some [(['a'], JVal.num 1)] ∧
    alistGet c2Store.cache ['a'] = none ∧
    (c2Store.reset (fun _ => true)).1 = Except.ok () ∧
    (c2Store.reset (fun _ => true)).2.1.cache = [(['a'], JVal.num 1)] ∧
    (c2Store.reset (fun _ => true)).2.2 = [] := by
  refine ⟨by decide, by decide, rfl, by decide, by decide⟩

/-- C2 amended: on a store constructed with defaults D, reset() leaves
the cache equal to a copy of D and emits one change event per key
present in the cache whose value differs from its default, carrying the
default value (or null when the key has no default); keys of D deleted
from the cache are restored silently, without an event. -/
theorem c2_reset_semantics (st : StoreRs) (d : JMap)
    (hdef : st.defaults = some d) :
    (st.reset (fun _ => true)).1 = Except.ok () ∧
    (st.reset (fun _ => true)).2.1.cache = d ∧
    (st.reset (fun _ => true)).2.2
      = (st.cache.filter (fun kv => decide (alistGet d kv.1 ≠ some kv.2))).map
          (fun kv => ChangePayload.mk st.path kv.1 ((alistGet d kv.1).getD JVal.null)) := by
  rw [StoreRs.reset, hdef]
  exact ⟨rfl, rfl, resetEvents_all_true st.path d st.cache 0⟩

theorem c2_witness :
    ((StoreRs.mk ['p'] (some [(['a'], JVal.num 1)]) [(['a'], JVal.num 2)]
          StoreRs.default_serialize StoreRs.default_deserialize).reset (fun _ => true)).1
      = Except.ok () ∧
    ((StoreRs.mk ['p'] (some [(['a'], JVal.num 1)]) [(['a'], JVal.num 2)]
          StoreRs.default_serialize StoreRs.default_deserialize).reset
        (fun _ => true)).2.1.cache = [(['a'], JVal.num 1)] ∧
    ((StoreRs.mk ['p'] (some [(['a'], JVal.num 1)]) [(['a'], JVal.num 2)]
          StoreRs.default_serialize StoreRs.default_deserialize).reset
        (fun _ => true)).2.2
      = [ChangePayload.mk ['p'] ['a'] (JVal.num 1)] := by
  have h := c2_reset_semantics
    (StoreRs.mk ['p'] (some [(['a'], JVal.num 1)]) [(['a'], JVal.num 2)]
      StoreRs.default_serialize StoreRs.default_deserialize)
    [(['a'], JVal.num 1)] rfl
  refine ⟨h.1, h.2.1, ?_⟩
  rw [h.2.2]
  decide

/-- C3: save() writes the codec's encoding of the cache; a fresh store
with an empty cache, the same path and the same (round-tripping, per
the codec contract of the spec) codec that loads those bytes ends with
a cache equal to the original one (Store::save and Store::load in
src/store.rs). -/
theorem c3_save_then_fresh_load (st fresh : StoreRs) (bytes : List Nat)
    (hnodup : nodupKeys st.cache)
    (hcodec : ∀ bs, st.serialize st.cache = Except.ok bs →
        st.deserialize bs = Except.ok st.cache)
    (hsave : st.save = Except.ok bytes)
    (hfreshCache : fresh.cache = [])
    (hfreshCodec : fresh.deserialize = st.deserialize) :
    (fresh.load (Except.ok bytes)).1 = Except.ok () ∧
    (fresh.load (Except.ok bytes)).2.cache = st.cache := by
  have hdec : fresh.deserialize bytes = Except.ok st.cache := by
    rw [hfreshCodec]
    exact hcodec bytes hsave
  rw [StoreRs.load, hdec]
  refine ⟨rfl, ?_⟩
  simp only [hfreshCache]
  exact alistExtend_nil_of_nodup st.cache hnodup

theorem c3_witness :
    ((StoreRs.mk ['p'] none []
          StoreRs.default_serialize StoreRs.default_deserialize).load
        (Except.ok (utf8Encode (encVal (JVal.obj [(['k'], JVal.num 7)]))))).1
      = Except.ok () ∧
    ((StoreRs.mk ['p'] none []
          StoreRs.default_serialize StoreRs.default_deserialize).load
        (Except.ok (utf8Encode (encVal (JVal.obj [(['k'], JVal.num 7)]))))).2.cache
      = [(['k'], JVal.num 7)] :=
  c3_save_then_fresh_load
    (StoreRs.mk ['p'] none [(['k'], JVal.num 7)]
      StoreRs.default_serialize StoreRs.default_deserialize)
    (StoreRs.mk ['p'] none []
      StoreRs.default_serialize StoreRs.default_deserialize)
    (utf8Encode (encVal (JVal.obj [(['k'], JVal.num 7)])))
    (by decide)
    (fun bs h => storeRs_codec_roundtrip [(['k'], JVal.num 7)] (by decide) bs h)
    rfl rfl rfl

/-- C6: decoding the default codec's encoding of a mapping yields the
mapping back exactly, for both default codecs: the plain JSON codec of
src/store.rs and the length-prefixed binary wrapper of
src/store_file.rs (whose u64 length prefix requires the text to fit in
64 bits). -/
theorem c6_default_codecs_roundtrip (m : JMap) (hm : nodupKeys m)
    (hlen : (utf8Encode (encVal (JVal.obj m))).length < 256 ^ 8) :
    (∀ bytes, StoreRs.default_serialize m = Except.ok bytes →
        StoreRs.default_deserialize bytes = Except.ok m) ∧
    (∀ bytes, StoreSF.default_serialize m = Except.ok bytes →
        StoreSF.default_deserialize bytes = Except.ok m) :=
  ⟨storeRs_codec_roundtrip m hm, storeSF_codec_roundtrip m hm hlen⟩

theorem c6_witness :
    nodupKeys [(['k'], JVal.str ['v']), (['n'], JVal.num (-5))] ∧
    StoreRs.default_deserialize
        (utf8Encode (encVal (JVal.obj [(['k'], JVal.str ['v']), (['n'], JVal.num (-5))])))
      = Except.ok [(['k'], JVal.str ['v']), (['n'], JVal.num (-5))] ∧
    StoreSF.default_deserialize
        (leBytes 8 (utf8Encode
            (encVal (JVal.obj [(['k'], JVal.str ['v']), (['n'], JVal.num (-5))]))).length
          ++ utf8Encode (encVal (JVal.obj [(['k'], JVal.str ['v']), (['n'], JVal.num (-5))])))
      = Except.ok [(['k'], JVal.str ['v']), (['n'], JVal.num (-5))] := by
  have h := c6_default_codecs_roundtrip [(['k'], JVal.str ['v']), (['n'], JVal.num (-5))]
    (by decide) (by decide)
  exact ⟨by decide, h.1 _ rfl, h.2 _ rfl⟩

/-- C9: with_store of src/lib.rs never propagates a load failure: when
the path has no store yet and the backing file is missing (read fails)
or its bytes do not decode, the operation is still applied to the store
in its constructed state — here StoreFile::new, whose cache is empty —
and the result is returned as usual. -/
theorem c9_with_store_swallows_load_failure {T : Type}
    (registry : List (Key × StoreFile)) (path : Key)
    (readRes : Except StoreErr (List Nat)) (f : StoreFile → T × StoreFile)
    (habsent : alistGet registry path = none)
    (hfail : ∀ bytes, readRes = Except.ok bytes →
        ∃ err, StoreSF.default_deserialize bytes = Except.error err) :
    with_store registry path readRes f
      = ((f (StoreFile.new path)).1,
          alistInsert registry path (f (StoreFile.new path)).2) ∧
    (StoreFile.new path).cache = [] := by
  have hload : StoreFile.load (StoreFile.new path) readRes = StoreFile.new path := by
    cases readRes with
    | error err => rfl
    | ok bytes =>
        obtain ⟨err, herr⟩ := hfail bytes rfl
        rw [StoreFile.load]
        simp only [herr]
  refine ⟨?_, rfl⟩
  unfold with_store
  rw [habsent]
  simp only [hload]

theorem c9_witness :
    with_store ([] : List (Key × StoreFile)) ['p'] (Except.error StoreErr.ioErr)
        (fun st => (st.cache.length, st))
      = (0, [(['p'], StoreFile.new ['p'])]) ∧
    (StoreFile.new ['p']).cache = [] := by
  have h := c9_with_store_swallows_load_failure ([] : List (Key × StoreFile)) ['p']
    (Except.error StoreErr.ioErr) (fun st => (st.cache.length, st)) rfl
    (fun bytes hb => Except.noConfusion hb)
  exact ⟨h.1, h.2⟩
